import Mathlib

/-!
# Verification of the connectivity builders in `ex-gwt-prudic2004t2.py`

This file gives a shallow embedding of the two hand-built topology
construction routines of the example script `ex-gwt-prudic2004t2.py`:

* `get_lake_connection_data` — scans a 2-D lake-membership grid and emits
  lake/aquifer connection records plus a per-lake connection counter list;
* `get_stream_data` — derives stream-reach connectivity and per-reach
  geometry (bed gradient, channel-top elevation) from a reach table.

Machine floats of the script are modelled as exact rationals (`ℚ`); note
that in Lean `x / 0 = 0` on `ℚ`, where numpy floats would give `inf`/`nan`
(the relevant theorems below only use division by zero to show that the
script does *not* raise an error there).  Python list indexing that can
raise `IndexError` is modelled with `Option`-valued results; indexing that
is provably in range in every execution path that the theorems touch is
modelled with `List.getD`/`List.set`.
-/

set_option autoImplicit false

namespace Prudic2004t2

/-- Column width `delr = 405.665` ft (script constant), written as an
exact rational so that kernel evaluation can reduce it. -/
def delr : ℚ := 405665 / 1000

/-- Row width `delc = 403.717` ft (script constant). -/
def delc : ℚ := 403717 / 1000

/-- Constant `lakebed_leakance = 1.0` of the script (bound to `lak_leakance`). -/
def lakebed_leakance : ℚ := 1

/-- One lake connection record, i.e. one element
`[ilak, nlakecon[ilak], cellid, claktype, bedleak, belev, telev, connlen, connwidth]`
of the `lakeconnectiondata` list built by `get_lake_connection_data`. -/
structure LakeConn where
  lak : Nat
  iconn : Nat
  cell : Nat × Nat × Nat
  claktype : String
  bedleak : ℚ
  belev : ℚ
  telev : ℚ
  connlen : ℚ
  connwidth : ℚ
deriving DecidableEq

/-- The data of one emission performed while processing a single lake cell:
everything of the record except the lake number and the running per-lake
connection counter value. -/
structure Emission where
  cell : Nat × Nat × Nat
  claktype : String
  connlen : ℚ
  connwidth : ℚ
deriving DecidableEq

/-- Build the full record from an emission, the lake number `ilak` and the
current value `c` of the per-lake counter `nlakecon[ilak]`. -/
def mkConn (ilak c : Nat) (e : Emission) : LakeConn :=
  ⟨ilak, c, e.cell, e.claktype, lakebed_leakance, 0, 0, e.connlen, e.connwidth⟩

/-- The records produced by a run of consecutive emissions for lake `ilak`
whose counter starts at `c` (the counter grows by one per emission). -/
def mkConns (ilak c : Nat) : List Emission → List LakeConn
  | [] => []
  | e :: es => mkConn ilak c e :: mkConns ilak (c + 1) es

/-- Thread a run of emissions for lake `ilak` through the state
`(lakeconnectiondata, nlakecon)`.  Reading `nlakecon[ilak]` out of range
models Python's `IndexError` as `none` (the counter list of the script is
the two-element literal `[0, 0]`). -/
def emitAll (ilak : Nat) : List Emission → List LakeConn × List Nat →
    Option (List LakeConn × List Nat)
  | [], st => some st
  | e :: es, (conns, counts) =>
    match counts.get? ilak with
    | none => none
    | some c => emitAll ilak es (conns ++ [mkConn ilak c e], counts.set ilak (c + 1))

/-- The emissions of `get_lake_connection_data` for the lake cell `(i, j)`,
in the order of the script: back `(i-1, j)`, left `(i, j-1)`, right
`(i, j+1)`, front `(i+1, j)`, then the unconditional vertical one.

The conditions are transcribed verbatim from the source.  Note the left
branch: the script tests `lakibd[i, j - 1] and idomain[0, i, j - 1] == 0`,
i.e. with the two comparisons *swapped* relative to the back/right/front
branches (`lakibd[...] == 0 and idomain[...]`). -/
def cellEmissions (nrow ncol : Nat) (lakibd : Nat → Nat → Nat)
    (idomain : Nat → Nat → Nat → Int) (i j : Nat) : List Emission :=
  (if 0 < i ∧ lakibd (i - 1) j = 0 ∧ idomain 0 (i - 1) j ≠ 0 then
    [⟨(0, i - 1, j), "horizontal", delc / 2, delr⟩] else [])
  ++ (if 0 < j ∧ lakibd i (j - 1) ≠ 0 ∧ idomain 0 i (j - 1) = 0 then
    [⟨(0, i, j - 1), "horizontal", delr / 2, delc⟩] else [])
  ++ (if j + 1 < ncol ∧ lakibd i (j + 1) = 0 ∧ idomain 0 i (j + 1) ≠ 0 then
    [⟨(0, i, j + 1), "horizontal", delr / 2, delc⟩] else [])
  ++ (if i + 1 < nrow ∧ lakibd (i + 1) j = 0 ∧ idomain 0 (i + 1) j ≠ 0 then
    [⟨(0, i + 1, j), "horizontal", delc / 2, delr⟩] else [])
  ++ [⟨(1, i, j), "vertical", 0, 0⟩]

/-- Process one cell of the scan: skip non-lake cells (`lakibd[i, j] == 0`,
`continue`), otherwise perform the cell's emissions for lake
`ilak = lakibd[i, j] - 1`. -/
def processCell (nrow ncol : Nat) (lakibd : Nat → Nat → Nat)
    (idomain : Nat → Nat → Nat → Int) (i j : Nat)
    (st : List LakeConn × List Nat) : Option (List LakeConn × List Nat) :=
  if lakibd i j = 0 then some st
  else emitAll (lakibd i j - 1) (cellEmissions nrow ncol lakibd idomain i j) st

/-- Run the scan over a list of cells, threading the state. -/
def scanCells (nrow ncol : Nat) (lakibd : Nat → Nat → Nat)
    (idomain : Nat → Nat → Nat → Int) :
    List (Nat × Nat) → List LakeConn × List Nat → Option (List LakeConn × List Nat)
  | [], st => some st
  | (i, j) :: cs, st =>
    match processCell nrow ncol lakibd idomain i j st with
    | none => none
    | some st' => scanCells nrow ncol lakibd idomain cs st'

/-- The row-major cell order `for i in range(nrow): for j in range(ncol)`. -/
def rowMajorCells (nrow ncol : Nat) : List (Nat × Nat) :=
  (List.range nrow).flatMap fun i => (List.range ncol).map fun j => (i, j)

/-- Shallow embedding of `get_lake_connection_data(lakibd, idomain)`.

The script fixes the grid extent by the globals `nrow = 36`, `ncol = 23`;
they are kept as parameters here so that statements can range over the
R×C grids of the spec's contract.  `lakibd` values are the non-negative
lake codes of the data model (0 = not a lake, `L` = lake `L-1`);
`idomain` participates only through the zero/nonzero test of layer 0.
The per-lake counter is the two-element literal `nlakecon = [0, 0]` of
the source; a cell value `v ≥ 3` makes the read `nlakecon[v - 1]` fall
out of range (`none`, Python `IndexError`). -/
def get_lake_connection_data (nrow ncol : Nat) (lakibd : Nat → Nat → Nat)
    (idomain : Nat → Nat → Nat → Int) : Option (List LakeConn × List Nat) :=
  scanCells nrow ncol lakibd idomain (rowMajorCells nrow ncol) ([], [0, 0])

/-! ## List helpers -/

theorem get?_some_lt {α : Type _} {l : List α} {i : Nat} {a : α}
    (h : l.get? i = some a) : i < l.length := by
  rw [List.get?_eq_getElem?] at h
  exact (List.getElem?_eq_some.mp h).1

theorem get?_set_self {α : Type _} {l : List α} {i : Nat} (v : α)
    (h : i < l.length) : (l.set i v).get? i = some v := by
  simp [List.get?_eq_getElem?, List.getElem?_set_eq_of_lt, h]

theorem get?_set_ne {α : Type _} {l : List α} {i j : Nat} (v : α)
    (h : i ≠ j) : (l.set i v).get? j = l.get? j := by
  simp [List.get?_eq_getElem?, List.getElem?_set_ne h]

theorem set_get?_self {α : Type _} : ∀ {l : List α} {i : Nat} {a : α},
    l.get? i = some a → l.set i a = l
  | [], _, _, h => by simp at h
  | x :: l, 0, a, h => by simp_all
  | x :: l, i + 1, a, h => by
    simp only [List.get?] at h
    simp [set_get?_self h]

/-! ## Closed form of an emission run -/

theorem mkConns_length (ilak c : Nat) (es : List Emission) :
    (mkConns ilak c es).length = es.length := by
  induction es generalizing c with
  | nil => rfl
  | cons e es ih => simp [mkConns, ih]

theorem mkConns_lak (ilak c : Nat) (es : List Emission) :
    ∀ r ∈ mkConns ilak c es, r.lak = ilak := by
  induction es generalizing c with
  | nil => intro r hr; simp [mkConns] at hr
  | cons e es ih =>
    intro r hr
    rcases List.mem_cons.mp hr with hr | hr
    · rw [hr]; rfl
    · exact ih (c + 1) r hr

theorem mem_mkConns {ilak c : Nat} {es : List Emission} {r : LakeConn}
    (hr : r ∈ mkConns ilak c es) : ∃ c' e, e ∈ es ∧ r = mkConn ilak c' e := by
  induction es generalizing c with
  | nil => simp [mkConns] at hr
  | cons e es ih =>
    rcases List.mem_cons.mp hr with hr | hr
    · exact ⟨c, e, by simp, hr⟩
    · obtain ⟨c', e', he', heq⟩ := ih hr
      exact ⟨c', e', by simp [he'], heq⟩

theorem mkConns_map_iconn (ilak c : Nat) (es : List Emission) :
    (mkConns ilak c es).map (·.iconn) = List.range' c es.length := by
  induction es generalizing c with
  | nil => rfl
  | cons e es ih => simp [mkConns, List.range'_succ c es.length 1, ih, mkConn]

theorem emitAll_eq (ilak : Nat) (es : List Emission) :
    ∀ (conns : List LakeConn) (counts : List Nat) (c : Nat),
    counts.get? ilak = some c →
    emitAll ilak es (conns, counts) =
      some (conns ++ mkConns ilak c es, counts.set ilak (c + es.length)) := by
  induction es with
  | nil =>
    intro conns counts c hc
    simp [emitAll, mkConns, set_get?_self hc]
  | cons e es ih =>
    intro conns counts c hc
    have hlt : ilak < counts.length := get?_some_lt hc
    have hc' : (counts.set ilak (c + 1)).get? ilak = some (c + 1) :=
      get?_set_self _ (by simpa using hlt)
    simp only [emitAll, hc]
    rw [ih _ _ _ hc', List.set_set]
    have harith : c + 1 + es.length = c + (e :: es).length := by
      rw [List.length_cons]; omega
    rw [harith]
    simp [mkConns]

theorem emitAll_none (ilak : Nat) (e : Emission) (es : List Emission)
    (conns : List LakeConn) (counts : List Nat)
    (hc : counts.get? ilak = none) :
    emitAll ilak (e :: es) (conns, counts) = none := by
  rw [List.get?_eq_getElem?] at hc
  simp [emitAll, hc]

theorem emitAll_mem {ilak : Nat} {es : List Emission} :
    ∀ {conns conns' : List LakeConn} {counts counts' : List Nat},
    emitAll ilak es (conns, counts) = some (conns', counts') →
    ∀ r ∈ conns', r ∈ conns ∨ ∃ c e, e ∈ es ∧ r = mkConn ilak c e := by
  induction es with
  | nil =>
    intro conns conns' counts counts' h r hr
    simp [emitAll] at h
    exact Or.inl (h.1 ▸ hr)
  | cons e es ih =>
    intro conns conns' counts counts' h r hr
    rw [emitAll] at h
    rcases hget : counts.get? ilak with _ | c <;> rw [hget] at h
    · simp at h
    · rcases ih h r hr with hmem | ⟨c', e', he', heq⟩
      · rcases List.mem_append.mp hmem with hmem | hmem
        · exact Or.inl hmem
        · exact Or.inr ⟨c, e, by simp, by simpa using hmem⟩
      · exact Or.inr ⟨c', e', by simp [he'], heq⟩

theorem emitAll_counts_length {ilak : Nat} {es : List Emission} :
    ∀ {conns conns' : List LakeConn} {counts counts' : List Nat},
    emitAll ilak es (conns, counts) = some (conns', counts') →
    counts'.length = counts.length := by
  induction es with
  | nil =>
    intro conns conns' counts counts' h
    simp [emitAll] at h
    rw [h.2]
  | cons e es ih =>
    intro conns conns' counts counts' h
    rw [emitAll] at h
    rcases hget : counts.get? ilak with _ | c <;> rw [hget] at h
    · simp at h
    · simpa using ih h

/-! ## The per-lake counter invariant (claim C7) -/

/-- Invariant tying the records accumulated so far to the counter list
`nlakecon`: the counter list keeps its length, and for every lake `L` the
connection indices of the records of lake `L`, in emission order, are
exactly `0, 1, …, nlakecon[L] - 1`. -/
def LakInv (st : List LakeConn × List Nat) : Prop :=
  st.2.length = 2 ∧
  ∀ L c, st.2.get? L = some c →
    (st.1.filter (fun r => r.lak == L)).map (·.iconn) = List.range c

theorem lakInv_emit {conns : List LakeConn} {counts : List Nat} {ilak c : Nat}
    (hinv : LakInv (conns, counts)) (hc : counts.get? ilak = some c)
    (e : Emission) :
    LakInv (conns ++ [mkConn ilak c e], counts.set ilak (c + 1)) := by
  obtain ⟨hlen, hidx⟩ := hinv
  have hlt : ilak < counts.length := get?_some_lt hc
  refine ⟨by simpa using hlen, ?_⟩
  intro L c' hc'
  by_cases hL : ilak = L
  · subst hL
    rw [get?_set_self _ (by simpa using hlt)] at hc'
    have hc'' : c' = c + 1 := by injection hc' with h; omega
    subst hc''
    rw [List.filter_append, List.map_append, hidx ilak c hc]
    simp [mkConn, List.range_succ]
  · rw [get?_set_ne _ hL] at hc'
    rw [List.filter_append, List.map_append, hidx L c' hc']
    have : (List.filter (fun r => r.lak == L) [mkConn ilak c e]) = [] := by
      simp [mkConn, hL]
    rw [this]
    simp

theorem lakInv_emitAll {ilak : Nat} {es : List Emission} :
    ∀ {conns conns' : List LakeConn} {counts counts' : List Nat},
    emitAll ilak es (conns, counts) = some (conns', counts') →
    LakInv (conns, counts) → LakInv (conns', counts') := by
  induction es with
  | nil =>
    intro conns conns' counts counts' h hinv
    simp [emitAll] at h
    exact h.1 ▸ h.2 ▸ hinv
  | cons e es ih =>
    intro conns conns' counts counts' h hinv
    rw [emitAll] at h
    rcases hget : counts.get? ilak with _ | c <;> rw [hget] at h
    · simp at h
    · exact ih h (lakInv_emit hinv hget e)

theorem lakInv_processCell {nrow ncol : Nat} {lakibd : Nat → Nat → Nat}
    {idomain : Nat → Nat → Nat → Int} {i j : Nat}
    {st st' : List LakeConn × List Nat}
    (h : processCell nrow ncol lakibd idomain i j st = some st')
    (hinv : LakInv st) : LakInv st' := by
  obtain ⟨conns, counts⟩ := st
  obtain ⟨conns', counts'⟩ := st'
  rw [processCell] at h
  split at h
  · injection h with h
    rw [← h]
    exact hinv
  · exact lakInv_emitAll h hinv

theorem lakInv_scanCells {nrow ncol : Nat} {lakibd : Nat → Nat → Nat}
    {idomain : Nat → Nat → Nat → Int} {cells : List (Nat × Nat)} :
    ∀ {st st' : List LakeConn × List Nat},
    scanCells nrow ncol lakibd idomain cells st = some st' →
    LakInv st → LakInv st' := by
  induction cells with
  | nil =>
    intro st st' h hinv
    simp [scanCells] at h
    exact h ▸ hinv
  | cons cell cs ih =>
    obtain ⟨a, b⟩ := cell
    intro st st' h hinv
    rw [scanCells] at h
    rcases hp : processCell nrow ncol lakibd idomain a b st with _ | st₁ <;>
      rw [hp] at h
    · simp at h
    · exact ih h (lakInv_processCell hp hinv)

theorem lakInv_init : LakInv ([], [0, 0]) := by
  constructor
  · rfl
  · intro L c hc
    have hL : L < 2 := by simpa using get?_some_lt hc
    interval_cases L <;> simp_all [List.get?]

/-! ## Scan structure lemmas -/

theorem mem_rowMajorCells {nrow ncol i j : Nat} :
    (i, j) ∈ rowMajorCells nrow ncol ↔ i < nrow ∧ j < ncol := by
  simp [rowMajorCells, List.mem_flatMap, List.mem_map, List.mem_range]

theorem cellEmissions_ne_nil (nrow ncol : Nat) (lakibd : Nat → Nat → Nat)
    (idomain : Nat → Nat → Nat → Int) (i j : Nat) :
    cellEmissions nrow ncol lakibd idomain i j ≠ [] := by
  rw [cellEmissions]
  intro h
  simpa using congrArg (fun l => (⟨(1, i, j), "vertical", 0, 0⟩ : Emission) ∈ l) h

theorem processCell_counts_length {nrow ncol : Nat} {lakibd : Nat → Nat → Nat}
    {idomain : Nat → Nat → Nat → Int} {i j : Nat}
    {conns conns' : List LakeConn} {counts counts' : List Nat}
    (h : processCell nrow ncol lakibd idomain i j (conns, counts) =
      some (conns', counts')) :
    counts'.length = counts.length := by
  rw [processCell] at h
  split at h
  · cases h
    rfl
  · exact emitAll_counts_length h

theorem processCell_mem {nrow ncol : Nat} {lakibd : Nat → Nat → Nat}
    {idomain : Nat → Nat → Nat → Int} {i j : Nat}
    {conns conns' : List LakeConn} {counts counts' : List Nat}
    (h : processCell nrow ncol lakibd idomain i j (conns, counts) =
      some (conns', counts')) :
    ∀ r ∈ conns', r ∈ conns ∨
      ∃ c e, e ∈ cellEmissions nrow ncol lakibd idomain i j ∧
        r = mkConn (lakibd i j - 1) c e := by
  rw [processCell] at h
  split at h
  · cases h
    intro r hr
    exact Or.inl hr
  · exact emitAll_mem h

theorem scanCells_mem {nrow ncol : Nat} {lakibd : Nat → Nat → Nat}
    {idomain : Nat → Nat → Nat → Int} {cells : List (Nat × Nat)} :
    ∀ {st st' : List LakeConn × List Nat},
    scanCells nrow ncol lakibd idomain cells st = some st' →
    ∀ r ∈ st'.1, r ∈ st.1 ∨
      ∃ i j c e, (i, j) ∈ cells ∧
        e ∈ cellEmissions nrow ncol lakibd idomain i j ∧
        r = mkConn (lakibd i j - 1) c e := by
  induction cells with
  | nil =>
    intro st st' h r hr
    simp [scanCells] at h
    exact Or.inl (h ▸ hr)
  | cons cell cs ih =>
    obtain ⟨a, b⟩ := cell
    intro st st' h r hr
    rw [scanCells] at h
    rcases hp : processCell nrow ncol lakibd idomain a b st with _ | st₁ <;>
      rw [hp] at h
    · simp at h
    · rcases ih h r hr with hmem | ⟨i, j, c, e, hcell, he, heq⟩
      · obtain ⟨conns, counts⟩ := st
        obtain ⟨conns₁, counts₁⟩ := st₁
        rcases processCell_mem hp r hmem with hmem' | ⟨c, e, he, heq⟩
        · exact Or.inl hmem'
        · exact Or.inr ⟨a, b, c, e, by simp, he, heq⟩
      · exact Or.inr ⟨i, j, c, e, by simp [hcell], he, heq⟩

/-! ## Totality (claim C9) -/

theorem scanCells_isSome {nrow ncol : Nat} {lakibd : Nat → Nat → Nat}
    {idomain : Nat → Nat → Nat → Int} {cells : List (Nat × Nat)} :
    ∀ {conns : List LakeConn} {counts : List Nat},
    counts.length = 2 → (∀ c ∈ cells, lakibd c.1 c.2 ≤ 2) →
    (scanCells nrow ncol lakibd idomain cells (conns, counts)).isSome := by
  induction cells with
  | nil =>
    intro conns counts _ _
    simp [scanCells]
  | cons cell cs ih =>
    obtain ⟨a, b⟩ := cell
    intro conns counts hlen hok
    rw [scanCells]
    rcases hv : lakibd a b with _ | v
    · rw [processCell, if_pos hv]
      exact ih hlen fun c hc => hok c (by simp [hc])
    · have hlt : v < counts.length := by
        have hle : lakibd a b ≤ 2 := hok (a, b) (by simp)
        omega
      obtain ⟨c, hc⟩ : ∃ c, counts.get? v = some c := by
        rcases h : counts.get? v with _ | c
        · rw [List.get?_eq_getElem?] at h
          rw [List.getElem?_eq_none_iff] at h
          omega
        · exact ⟨c, rfl⟩
      rw [processCell, if_neg (by omega), hv]
      simp only [Nat.add_sub_cancel]
      rw [emitAll_eq v _ conns counts c hc]
      exact ih (by simpa using hlen) fun c hc => hok c (by simp [hc])

theorem scanCells_none_of_bad {nrow ncol : Nat} {lakibd : Nat → Nat → Nat}
    {idomain : Nat → Nat → Nat → Int} {i j : Nat} {cells : List (Nat × Nat)} :
    ∀ {conns : List LakeConn} {counts : List Nat},
    counts.length = 2 → (i, j) ∈ cells → 3 ≤ lakibd i j →
    scanCells nrow ncol lakibd idomain cells (conns, counts) = none := by
  induction cells with
  | nil => intro conns counts _ hmem; simp at hmem
  | cons cell cs ih =>
    obtain ⟨a, b⟩ := cell
    intro conns counts hlen hmem hbad
    rw [scanCells]
    by_cases hcell : a = i ∧ b = j
    · obtain ⟨rfl, rfl⟩ := hcell
      have hget : counts.get? (lakibd a b - 1) = none := by
        rw [List.get?_eq_getElem?, List.getElem?_eq_none_iff]
        omega
      obtain ⟨e, es, hes⟩ : ∃ e es,
          cellEmissions nrow ncol lakibd idomain a b = e :: es := by
        rcases h : cellEmissions nrow ncol lakibd idomain a b with _ | ⟨e, es⟩
        · exact absurd h (cellEmissions_ne_nil nrow ncol lakibd idomain a b)
        · exact ⟨e, es, rfl⟩
      rw [processCell, if_neg (by omega), hes, emitAll_none _ _ _ _ _ hget]
    · have hmem' : (i, j) ∈ cs := by
        rcases List.mem_cons.mp hmem with h | h
        · injection h with h1 h2
          exact absurd ⟨h1.symm, h2.symm⟩ hcell
        · exact h
      rcases hp : processCell nrow ncol lakibd idomain a b
        (conns, counts) with _ | st₁
      · rfl
      · obtain ⟨conns₁, counts₁⟩ := st₁
        exact ih (hlen ▸ processCell_counts_length hp) hmem' hbad

/-! ## Case analysis of a cell's emissions (claim C8) -/

theorem mem_cellEmissions {nrow ncol : Nat} {lakibd : Nat → Nat → Nat}
    {idomain : Nat → Nat → Nat → Int} {i j : Nat} {e : Emission}
    (he : e ∈ cellEmissions nrow ncol lakibd idomain i j) :
    (0 < i ∧ lakibd (i - 1) j = 0 ∧ idomain 0 (i - 1) j ≠ 0 ∧
      e = ⟨(0, i - 1, j), "horizontal", delc / 2, delr⟩)
    ∨ (0 < j ∧ lakibd i (j - 1) ≠ 0 ∧ idomain 0 i (j - 1) = 0 ∧
      e = ⟨(0, i, j - 1), "horizontal", delr / 2, delc⟩)
    ∨ (j + 1 < ncol ∧ lakibd i (j + 1) = 0 ∧ idomain 0 i (j + 1) ≠ 0 ∧
      e = ⟨(0, i, j + 1), "horizontal", delr / 2, delc⟩)
    ∨ (i + 1 < nrow ∧ lakibd (i + 1) j = 0 ∧ idomain 0 (i + 1) j ≠ 0 ∧
      e = ⟨(0, i + 1, j), "horizontal", delc / 2, delr⟩)
    ∨ e = ⟨(1, i, j), "vertical", 0, 0⟩ := by
  rw [cellEmissions] at he
  simp only [List.mem_append, List.mem_ite_nil_right, List.mem_singleton] at he
  tauto

theorem cellEmissions_geom {nrow ncol : Nat} {lakibd : Nat → Nat → Nat}
    {idomain : Nat → Nat → Nat → Int} {i j : Nat} {e : Emission}
    (he : e ∈ cellEmissions nrow ncol lakibd idomain i j) :
    (e.claktype = "horizontal" ∧
      ((e.connlen = delc / 2 ∧ e.connwidth = delr) ∨
       (e.connlen = delr / 2 ∧ e.connwidth = delc)))
    ∨ (e.claktype = "vertical" ∧ e.connlen = 0 ∧ e.connwidth = 0) := by
  rcases mem_cellEmissions he with ⟨_, _, _, rfl⟩ | ⟨_, _, _, rfl⟩ |
    ⟨_, _, _, rfl⟩ | ⟨_, _, _, rfl⟩ | rfl
  · exact Or.inl ⟨rfl, Or.inl ⟨rfl, rfl⟩⟩
  · exact Or.inl ⟨rfl, Or.inr ⟨rfl, rfl⟩⟩
  · exact Or.inl ⟨rfl, Or.inr ⟨rfl, rfl⟩⟩
  · exact Or.inl ⟨rfl, Or.inl ⟨rfl, rfl⟩⟩
  · exact Or.inr ⟨rfl, rfl, rfl⟩

theorem cellEmissions_northsouth {nrow ncol : Nat} {lakibd : Nat → Nat → Nat}
    {idomain : Nat → Nat → Nat → Int} {i j : Nat} {e : Emission}
    (he : e ∈ cellEmissions nrow ncol lakibd idomain i j)
    (hcell : e.cell = (0, i - 1, j) ∨ e.cell = (0, i + 1, j))
    (hhor : e.claktype = "horizontal") :
    e.connlen = delc / 2 ∧ e.connwidth = delr := by
  rcases mem_cellEmissions he with ⟨_, _, _, rfl⟩ | ⟨hj, _, _, rfl⟩ |
    ⟨_, _, _, rfl⟩ | ⟨_, _, _, rfl⟩ | rfl
  · exact ⟨rfl, rfl⟩
  · exfalso
    rcases hcell with hc | hc <;>
      · simp only [Emission.cell, Prod.mk.injEq] at hc
        omega
  · exfalso
    rcases hcell with hc | hc <;>
      · simp only [Emission.cell, Prod.mk.injEq] at hc
        omega
  · exact ⟨rfl, rfl⟩
  · exact absurd hhor (by simp)

theorem cellEmissions_eastwest {nrow ncol : Nat} {lakibd : Nat → Nat → Nat}
    {idomain : Nat → Nat → Nat → Int} {i j : Nat} {e : Emission}
    (he : e ∈ cellEmissions nrow ncol lakibd idomain i j)
    (hcell : e.cell = (0, i, j - 1) ∨ e.cell = (0, i, j + 1))
    (hhor : e.claktype = "horizontal") :
    e.connlen = delr / 2 ∧ e.connwidth = delc := by
  rcases mem_cellEmissions he with ⟨hi, _, _, rfl⟩ | ⟨_, _, _, rfl⟩ |
    ⟨_, _, _, rfl⟩ | ⟨hi, _, _, rfl⟩ | rfl
  · exfalso
    rcases hcell with hc | hc <;>
      · simp only [Emission.cell, Prod.mk.injEq] at hc
        omega
  · exact ⟨rfl, rfl⟩
  · exact ⟨rfl, rfl⟩
  · exfalso
    rcases hcell with hc | hc <;>
      · simp only [Emission.cell, Prod.mk.injEq] at hc
        omega
  · exact absurd hhor (by simp)

/-! ## Determinism / extensionality (claim C10) -/

section Congruence

variable {nrow ncol : Nat} {lakibd₁ lakibd₂ : Nat → Nat → Nat}
variable {idomain₁ idomain₂ : Nat → Nat → Nat → Int}

theorem cellEmissions_congr
    (hl : ∀ a b, a < nrow → b < ncol → lakibd₁ a b = lakibd₂ a b)
    (hd : ∀ a b, a < nrow → b < ncol → idomain₁ 0 a b = idomain₂ 0 a b)
    {i j : Nat} (hi : i < nrow) (hj : j < ncol) :
    cellEmissions nrow ncol lakibd₁ idomain₁ i j =
      cellEmissions nrow ncol lakibd₂ idomain₂ i j := by
  rw [cellEmissions, cellEmissions]
  rw [hl (i - 1) j (by omega) hj, hd (i - 1) j (by omega) hj]
  rw [hl i (j - 1) hi (by omega), hd i (j - 1) hi (by omega)]
  by_cases hj1 : j + 1 < ncol
  · rw [hl i (j + 1) hi hj1, hd i (j + 1) hi hj1]
    by_cases hi1 : i + 1 < nrow
    · rw [hl (i + 1) j hi1 hj, hd (i + 1) j hi1 hj]
    · simp only [hi1, false_and, if_false]
  · simp only [hj1, false_and, if_false]
    by_cases hi1 : i + 1 < nrow
    · rw [hl (i + 1) j hi1 hj, hd (i + 1) j hi1 hj]
    · simp only [hi1, false_and, if_false]

theorem processCell_congr
    (hl : ∀ a b, a < nrow → b < ncol → lakibd₁ a b = lakibd₂ a b)
    (hd : ∀ a b, a < nrow → b < ncol → idomain₁ 0 a b = idomain₂ 0 a b)
    {i j : Nat} (hi : i < nrow) (hj : j < ncol)
    (st : List LakeConn × List Nat) :
    processCell nrow ncol lakibd₁ idomain₁ i j st =
      processCell nrow ncol lakibd₂ idomain₂ i j st := by
  rw [processCell, processCell, hl i j hi hj, cellEmissions_congr hl hd hi hj]

theorem scanCells_congr
    (hl : ∀ a b, a < nrow → b < ncol → lakibd₁ a b = lakibd₂ a b)
    (hd : ∀ a b, a < nrow → b < ncol → idomain₁ 0 a b = idomain₂ 0 a b)
    {cells : List (Nat × Nat)}
    (hcells : ∀ c ∈ cells, c.1 < nrow ∧ c.2 < ncol) :
    ∀ st, scanCells nrow ncol lakibd₁ idomain₁ cells st =
      scanCells nrow ncol lakibd₂ idomain₂ cells st := by
  induction cells with
  | nil => intro st; rfl
  | cons cell cs ih =>
    obtain ⟨a, b⟩ := cell
    intro st
    obtain ⟨ha, hb⟩ := hcells (a, b) (by simp)
    rw [scanCells, scanCells, processCell_congr hl hd ha hb st]
    rcases processCell nrow ncol lakibd₂ idomain₂ a b st with _ | st₁
    · rfl
    · exact ih (fun c hc => hcells c (by simp [hc])) st₁

end Congruence

/-! ## Concrete grids used as counterexamples and witnesses -/

/-- A default record used with `List.getD`. -/
def noConn : LakeConn := ⟨0, 0, (0, 0, 0), "", 0, 0, 0, 0, 0⟩

/-- A 3×3 test grid: one lake cell in the middle, all four neighbors
in-bounds, non-lake. -/
def lakMid : Nat → Nat → Nat := fun i j => if i = 1 ∧ j = 1 then 1 else 0

/-- Fully active domain mask. -/
def idomAll1 : Nat → Nat → Nat → Int := fun _ _ _ => 1

/-- Fully inactive domain mask. -/
def idomAll0 : Nat → Nat → Nat → Int := fun _ _ _ => 0

/-- A 1×2 test grid in which both cells belong to lake 1. -/
def lakPair : Nat → Nat → Nat := fun i j => if i = 0 ∧ (j = 0 ∨ j = 1) then 1 else 0

/-- A 2×2 test grid with two lakes: lake 1 at `(0,0)`, lake 2 on row 1. -/
def lakTwo : Nat → Nat → Nat := fun i j => if i = 0 ∧ j = 0 then 1 else if i = 1 then 2 else 0

/-- The output of the builder on `lakTwo` (defined for witness statements). -/
def lakTwo_out : List LakeConn × List Nat :=
  (get_lake_connection_data 2 2 lakTwo idomAll1).getD ([], [])

/-- The output of the builder on `lakMid` (defined for witness statements). -/
def lakMid_out : List LakeConn × List Nat :=
  (get_lake_connection_data 3 3 lakMid idomAll1).getD ([], [])

/-! ## Claim theorems: lake builder -/

/-- Claim C1 (counterexample evaluation). The spec claims that a lake cell
whose four planar neighbors are all in-bounds, non-lake and active emits a
horizontal record toward each of them — five records in total.  On the
3×3 grid with a single lake cell at `(1,1)` and a fully active domain, the
source emits only **4** records, and **no** record toward the west/left
neighbor `(0, 1, 0)`: the left branch of the source tests
`lakibd[i, j-1] and idomain[0, i, j-1] == 0` instead of
`lakibd[i, j-1] == 0 and idomain[0, i, j-1]`. -/
theorem C1_left_branch_counterexample :
    (get_lake_connection_data 3 3 lakMid idomAll1).map
      (fun p => (p.1.length,
        p.1.countP (fun r => r.cell == ((0 : Nat), (1 : Nat), (0 : Nat))))) =
      some (4, 0) := by decide

/-- Claim C6 (counterexample evaluation). The spec claims a lake cell with
zero active non-lake neighbors yields exactly its one vertical record.  On
the 1×2 grid where both cells belong to lake 1 and the whole domain is
inactive, cell `(0,1)` has no active non-lake neighbor, yet the source
emits 3 records in total: two verticals (one per lake cell, as claimed)
**plus** one horizontal record toward the inactive lake cell `(0, 0, 0)`,
produced by the swapped left-branch test. -/
theorem C6_inactive_neighbor_counterexample :
    (get_lake_connection_data 1 2 lakPair idomAll0).map
      (fun p => (p.1.length,
        p.1.countP (fun r => r.claktype == "vertical"),
        p.1.countP (fun r =>
          r.claktype == "horizontal" && r.cell == ((0 : Nat), (0 : Nat), (0 : Nat))))) =
      some (3, 2, 1) := by decide

/-- Claim C7: for every lake grid accepted by `get_lake_connection_data`,
the connection indices of each lake form the contiguous run
`0, 1, 2, …` in emission order (row-major scan, fixed per-cell order), and
the returned per-lake counter equals the number of records of that lake. -/
theorem C7_contiguous_connection_indices (nrow ncol : Nat)
    (lakibd : Nat → Nat → Nat) (idomain : Nat → Nat → Nat → Int)
    (recs : List LakeConn) (counts : List Nat)
    (h : get_lake_connection_data nrow ncol lakibd idomain = some (recs, counts)) :
    counts.length = 2 ∧
    ∀ L c, counts.get? L = some c →
      (recs.filter (fun r => r.lak == L)).map (·.iconn) = List.range c ∧
      (recs.filter (fun r => r.lak == L)).length = c := by
  have hinv : LakInv (recs, counts) := lakInv_scanCells h lakInv_init
  refine ⟨hinv.1, fun L c hc => ⟨hinv.2 L c hc, ?_⟩⟩
  have hlen := congrArg List.length (hinv.2 L c hc)
  simpa using hlen

/-- Witness for C7 on the two-lake 2×2 grid: lake 2 (index 1) has counter
3 and its connection indices are `[0, 1, 2]`. -/
theorem C7_contiguous_connection_indices_witness :
    (lakTwo_out.1.filter (fun r => r.lak == 1)).map (·.iconn) = List.range 3 :=
  ((C7_contiguous_connection_indices 2 2 lakTwo idomAll1
      lakTwo_out.1 lakTwo_out.2 rfl).2 1 3 rfl).1

/-- Claim C8: every record of a successful run carries the distance fields
of its direction class: horizontal records carry either
`(delc/2, delr)` (north/south) or `(delr/2, delc)` (west/east) and
vertical records carry `(0, 0)`; and at the emission level the pair is
determined by the orientation of the target neighbor — `(0, i±1, j)`
(back/front) gives `(delc/2, delr)`, `(0, i, j±1)` (left/right) gives
`(delr/2, delc)`. -/
theorem C8_distance_fields (nrow ncol : Nat)
    (lakibd : Nat → Nat → Nat) (idomain : Nat → Nat → Nat → Int)
    (recs : List LakeConn) (counts : List Nat)
    (h : get_lake_connection_data nrow ncol lakibd idomain = some (recs, counts)) :
    (∀ r ∈ recs,
      (r.claktype = "horizontal" →
        (r.connlen = delc / 2 ∧ r.connwidth = delr) ∨
        (r.connlen = delr / 2 ∧ r.connwidth = delc)) ∧
      (r.claktype = "vertical" → r.connlen = 0 ∧ r.connwidth = 0)) ∧
    (∀ i j : Nat, ∀ e ∈ cellEmissions nrow ncol lakibd idomain i j,
      ((e.cell = ((0 : Nat), i - 1, j) ∨ e.cell = (0, i + 1, j)) →
        e.claktype = "horizontal" → e.connlen = delc / 2 ∧ e.connwidth = delr) ∧
      ((e.cell = ((0 : Nat), i, j - 1) ∨ e.cell = (0, i, j + 1)) →
        e.claktype = "horizontal" → e.connlen = delr / 2 ∧ e.connwidth = delc)) := by
  constructor
  · intro r hr
    rcases scanCells_mem h r hr with hmem | ⟨i, j, c, e, _, he, heq⟩
    · simp at hmem
    · have hg := cellEmissions_geom he
      subst heq
      constructor
      · intro hhor
        rcases hg with ⟨_, hlens⟩ | ⟨hver, _⟩
        · exact hlens
        · rw [mkConn] at hhor
          simp only at hhor
          rw [hver] at hhor
          simp at hhor
      · intro hver
        rcases hg with ⟨hhor, _⟩ | ⟨_, h1, h2⟩
        · rw [mkConn] at hver
          simp only at hver
          rw [hhor] at hver
          simp at hver
        · exact ⟨h1, h2⟩
  · intro i j e he
    exact ⟨fun hcell hhor => cellEmissions_northsouth he hcell hhor,
      fun hcell hhor => cellEmissions_eastwest he hcell hhor⟩

/-- Witness for C8: the first record of the `lakMid` run (the back/north
horizontal connection of the middle lake cell) carries one of the two
direction-class distance pairs. -/
theorem C8_distance_fields_witness :
    ((lakMid_out.1.getD 0 noConn).connlen = delc / 2 ∧
      (lakMid_out.1.getD 0 noConn).connwidth = delr) ∨
    ((lakMid_out.1.getD 0 noConn).connlen = delr / 2 ∧
      (lakMid_out.1.getD 0 noConn).connwidth = delc) :=
  ((C8_distance_fields 3 3 lakMid idomAll1 lakMid_out.1 lakMid_out.2
      rfl).1 (lakMid_out.1.getD 0 noConn)
      (by
        rw [List.getD_eq_getElem lakMid_out.1 noConn (by decide)]
        exact List.getElem_mem _)).1 (by decide)

/-- Claim C9: the builder succeeds exactly on the grids whose values are at
most 2 — the per-lake counter is the hard-coded two-element list `[0, 0]`,
so a cell value `v ≥ 3` makes the read `nlakecon[v - 1]` fail with an
out-of-range index before any record for that cell is kept. -/
theorem C9_total_iff_at_most_two_lakes (nrow ncol : Nat)
    (lakibd : Nat → Nat → Nat) (idomain : Nat → Nat → Nat → Int) :
    (get_lake_connection_data nrow ncol lakibd idomain).isSome = true ↔
    ∀ i, i < nrow → ∀ j, j < ncol → lakibd i j ≤ 2 := by
  constructor
  · intro h
    by_contra hc
    push_neg at hc
    obtain ⟨i, hi, j, hj, hbad⟩ := hc
    rw [get_lake_connection_data,
      @scanCells_none_of_bad nrow ncol lakibd idomain i j
        (rowMajorCells nrow ncol) [] [0, 0] rfl
        (mem_rowMajorCells.mpr ⟨hi, hj⟩) (by omega)] at h
    simp at h
  · intro hok
    exact scanCells_isSome rfl fun c hc => by
      obtain ⟨hi, hj⟩ := mem_rowMajorCells.mp hc
      exact hok c.1 hi c.2 hj

/-- Claim C10: the builder is a pure function of the in-bounds grid values:
two grids and masks that agree on every in-bounds cell (the mask through
its layer-0 slice, the only one read) produce identical outputs.  The
source never writes to `lakibd` or `idomain`, so repeated invocations see
unchanged inputs. -/
theorem C10_deterministic (nrow ncol : Nat)
    (lakibd₁ lakibd₂ : Nat → Nat → Nat) (idomain₁ idomain₂ : Nat → Nat → Nat → Int)
    (hl : ∀ i, i < nrow → ∀ j, j < ncol → lakibd₁ i j = lakibd₂ i j)
    (hd : ∀ i, i < nrow → ∀ j, j < ncol → idomain₁ 0 i j = idomain₂ 0 i j) :
    get_lake_connection_data nrow ncol lakibd₁ idomain₁ =
      get_lake_connection_data nrow ncol lakibd₂ idomain₂ := by
  rw [get_lake_connection_data, get_lake_connection_data]
  exact scanCells_congr (fun a b ha hb => hl a ha b hb)
    (fun a b ha hb => hd a ha b hb)
    (fun c hc => mem_rowMajorCells.mp hc) _

/-- A 1×1 grid given by a syntactically different function that agrees
with `lakMid`-style membership on the single in-bounds cell. -/
def lakOne : Nat → Nat → Nat := fun i j => if i + j = 0 then 1 else 0

/-- Another description of the same 1×1 grid, differing out of bounds. -/
def lakOne' : Nat → Nat → Nat := fun i j => if i = 0 ∧ j = 0 then 1 else 2

/-- Witness for C10: the two descriptions of the 1×1 grid agree in bounds
(but not out of bounds), and the builder returns identical results. -/
theorem C10_deterministic_witness :
    get_lake_connection_data 1 1 lakOne idomAll1 =
      get_lake_connection_data 1 1 lakOne' idomAll1 :=
  C10_deterministic 1 1 lakOne lakOne' idomAll1 idomAll1
    (by decide) (by decide)

/-! ## The stream network builder: `get_stream_data`

The reach table `stream.csv` is external data (it lives in the example's
data directory, not in the repository sources), so the builder is
parameterized by the list of rows read from it; everything after the
`np.genfromtxt` call is transcribed from the source.  Python list reads
`xs[i]` accept negative indices (wrap-around); writes and reads that the
script performs at indices provably in range are modelled with
`List.set`/`List.getD` (with wrap-around for negative indices), and the
lookups that can genuinely fall out of range (`segment_gradients[iseg]`
etc. for a segment id outside 1..4) are modelled with an `Option`. -/

/-- One row of the reach table: columns `seg`, `layer`, `row`, `col`
(integers) and `length` (float). -/
structure StreamRow where
  seg : Int
  layer : Int
  row : Int
  col : Int
  length : ℚ
deriving DecidableEq, Inhabited

/-- Python `xs[idx].append(v)` on a list of lists: negative indices wrap
around; an index that is still out of range leaves the list unchanged
(the script only ever appends in range for the inputs the theorems use). -/
def pyAppend (cd : List (List Int)) (idx : Int) (v : Int) : List (List Int) :=
  let k := (if idx < 0 then idx + cd.length else idx).toNat
  cd.set k (cd.getD k [] ++ [v])

/-- Python `xs[idx]` on a float array: negative indices wrap around. -/
def pyGetQ (xs : List ℚ) (idx : Int) : ℚ :=
  let k := (if idx < 0 then idx + xs.length else idx).toNat
  xs.getD k 0

/-- Python `xs[idx]` where an out-of-range index raises `IndexError`
(modelled as `none`); negative indices wrap around. -/
def pyGet? {α : Type _} (xs : List α) (idx : Int) : Option α :=
  let k := if idx < 0 then idx + xs.length else idx
  if k < 0 then none else xs.get? k.toNat

/-- The `for ireach, row in enumerate(streamdata)` loop of
`get_stream_data`: threads the running reach index, the previous segment
id minus one (`isegold`, starting at `-1`), the running distance and the
accumulating `connectiondata` / `distance_along_segment` lists.
(The Python variable `distance` is unbound before the first iteration;
the `0` passed at the start is never read when every `seg` is ≥ 1,
because the first iteration then takes the `else` branch.) -/
def connLoop (lengths : List ℚ) :
    Nat → Int → ℚ → List (List Int) → List ℚ → List StreamRow →
    List (List Int) × List ℚ
  | _, _, _, cd, dl, [] => (cd, dl)
  | ireach, isegold, dist, cd, dl, r :: rest =>
    let iseg : Int := r.seg - 1
    if iseg = isegold then
      let cd' := pyAppend (pyAppend cd (ireach : Int) ((ireach : Int) - 1))
        ((ireach : Int) - 1) (-(ireach : Int))
      let dist' := dist + pyGetQ lengths ((ireach : Int) - 1) * (1 / 2)
        + pyGetQ lengths (ireach : Int) * (1 / 2)
      connLoop lengths (ireach + 1) iseg dist' cd' (dl ++ [dist']) rest
    else
      let dist' := pyGetQ lengths (ireach : Int) * (1 / 2)
      connLoop lengths (ireach + 1) iseg dist' cd (dl ++ [dist']) rest

/-- The automatic connectivity / distance pass: start from
`connectiondata = [[ireach] for ireach in range(n)]`, `isegold = -1`, and
walk the reach table in file order.  Returns the pair
`(connectiondata, distance_along_segment)` *before* the manual extra
connections are appended. -/
def auto_connectiondata (rows : List StreamRow) : List (List Int) × List ℚ :=
  connLoop (rows.map (·.length)) 0 (-1) 0
    ((List.range rows.length).map fun (i : Nat) => [(i : Int)]) [] rows

/-- The four hard-coded extra connections
`connectiondata[17].append(-31)`, `connectiondata[31].append(17)`,
`connectiondata[30].append(-31)`, `connectiondata[31].append(30)`.
(Python raises `IndexError` on tables of fewer than 32 reaches; the
theorems below only evaluate this on tables where the indices exist.) -/
def add_manual (cd : List (List Int)) : List (List Int) :=
  pyAppend (pyAppend (pyAppend (pyAppend cd 17 (-31)) 31 17) 30 (-31)) 31 30

/-- The hard-coded per-segment `(emax, emin)` elevation pairs
`[(49, 45), (44.5, 34), (41.5, 34.0), (34.0, 27.2)]`, written as exact
rationals. -/
def emaxmin : List (ℚ × ℚ) := [(49, 45), (89 / 2, 34), (83 / 2, 34), (34, 136 / 5)]

/-- Transcription of `segment_lengths`: for each segment id 1..4, the sum of the lengths of
the reaches of that segment (`np.where(streamdata["seg"] == iseg)` then
`.sum()`). -/
def segment_lengths (rows : List StreamRow) : List ℚ :=
  ([1, 2, 3, 4] : List Int).map fun iseg =>
    ((rows.filter (fun r => r.seg == iseg)).map (·.length)).sum

/-- Transcription of `segment_gradients`: `(emax - emin) / segment_lengths[iseg]` for each
pair of `emaxmin` (note: on `ℚ` a division by a zero total length gives
`0`, where numpy floats give `inf` with a warning — in both cases no
exception is raised and the loop keeps going). -/
def segment_gradients (rows : List StreamRow) : List ℚ :=
  (emaxmin.zip (segment_lengths rows)).map fun pl => (pl.1.1 - pl.1.2) / pl.2

/-- Constant `stream_width = 5.0` of the script. -/
def stream_width : ℚ := 5

/-- Constant `streambed_thick = 1.0` of the script. -/
def streambed_thick : ℚ := 1

/-- Constant `streambed_k = 100.0` of the script. -/
def streambed_k : ℚ := 100

/-- Constant `manning = 0.03` of the script. -/
def manning : ℚ := 3 / 100

/-- Constant `ustrf = 1.0` set in `get_stream_data`. -/
def ustrf : ℚ := 1

/-- Constant `ndv = 0` set in `get_stream_data`. -/
def ndv : Int := 0

/-- One `packagedata` record
`(ireach, (k, i, j), length, width, rgrd, rtp, thick, hk, manning, ncon, ustrf, ndv, boundname)`. -/
structure PackRec where
  rno : Nat
  cell : Int × Int × Int
  rlen : ℚ
  rwid : ℚ
  rgrd : ℚ
  rtp : ℚ
  rbth : ℚ
  rhk : ℚ
  man : ℚ
  ncon : Int
  ustrf : ℚ
  ndv : Int
  boundname : String
deriving DecidableEq, Inhabited

/-- Build the `packagedata` record of one reach: look up the segment's
gradient, elevation pair and total length (Python `IndexError`, i.e.
`none`, when the reach's segment id is outside 1..4), then interpolate
the channel-top elevation
`rtp = emax - distance_along_segment[ireach] / segment_lengths[iseg] * (emax - emin)`. -/
def mkRec (sg sl : List ℚ) (cd : List (List Int)) (dl : List ℚ)
    (ireach : Nat) (r : StreamRow) : Option PackRec :=
  let iseg : Int := r.seg - 1
  match pyGet? sg iseg, pyGet? emaxmin iseg, pyGet? sl iseg with
  | some rgrd, some em, some slen =>
    let rtp0 := dl.getD ireach 0 / slen * (em.1 - em.2)
    some ⟨ireach, (r.layer - 1, r.row - 1, r.col - 1), r.length, stream_width,
      rgrd, em.1 - rtp0, streambed_thick, streambed_k, manning,
      ((cd.getD ireach []).length : Int) - 1, ustrf, ndv,
      "SEG" ++ toString (iseg + 1)⟩
  | _, _, _ => none

/-- The `for ireach, row in enumerate(streamdata)` assembly loop of the
`packagedata` list. -/
def packLoop (sg sl : List ℚ) (cd : List (List Int)) (dl : List ℚ) :
    Nat → List StreamRow → Option (List PackRec)
  | _, [] => some []
  | ireach, r :: rest =>
    match mkRec sg sl cd dl ireach r with
    | none => none
    | some pr =>
      match packLoop sg sl cd dl (ireach + 1) rest with
      | none => none
      | some rest' => some (pr :: rest')

/-- The `packagedata` assembly of `get_stream_data`, given the (already
augmented) `connectiondata` used only for the `ncon` field. -/
def packagedata (rows : List StreamRow) (cd : List (List Int)) :
    Option (List PackRec) :=
  packLoop (segment_gradients rows) (segment_lengths rows) cd
    (auto_connectiondata rows).2 0 rows

/-- Shallow embedding of `get_stream_data()` as a function of the rows of
`stream.csv`: the automatic connectivity / distance pass, the four manual
extra connections, then the `packagedata` assembly.  Returns
`(packagedata, connectiondata)`. -/
def get_stream_data (rows : List StreamRow) :
    Option (List PackRec × List (List Int)) :=
  let cd := add_manual (auto_connectiondata rows).1
  match packagedata rows cd with
  | none => none
  | some pd => some (pd, cd)

/-! ## Specification-side descriptions of the stream pass

`partialEntry`/`autoEntry` and `specDist` restate, index by index, what
the spec says the connectivity and distance pass produce; the theorems
below prove that `auto_connectiondata` computes exactly these. -/

/-- The segment id of reach `i` (0 when out of range). -/
def segAt (rows : List StreamRow) (i : Nat) : Int := (rows.getD i default).seg

/-- The length of reach `i` (0 when out of range). -/
def lenAt (rows : List StreamRow) (i : Nat) : ℚ := (rows.getD i default).length

/-- The connectivity entry of reach `i` after the first `k` reaches have
been processed: the reach's own index, then the upstream neighbor
(previous index, present once reach `i` itself is processed and its
segment continues from reach `i-1`), then the downstream neighbor
(negated next index, present once reach `i+1` is processed and continues
the same segment). -/
def partialEntry (rows : List StreamRow) (k i : Nat) : List Int :=
  [(i : Int)]
  ++ (if 0 < i ∧ i < k ∧ segAt rows i = segAt rows (i - 1) then
      [(i : Int) - 1] else [])
  ++ (if i + 1 < k ∧ segAt rows (i + 1) = segAt rows i then
      [-((i : Int) + 1)] else [])

/-- The final automatic connectivity entry of reach `i`. -/
def autoEntry (rows : List StreamRow) (i : Nat) : List Int :=
  partialEntry rows rows.length i

/-- The running midpoint distance of the spec: half the reach's own
length at a segment start, otherwise the previous distance plus half the
previous and half the current reach length. -/
def specDist (rows : List StreamRow) : Nat → ℚ
  | 0 => lenAt rows 0 * (1 / 2)
  | i + 1 =>
    if segAt rows (i + 1) = segAt rows i then
      specDist rows i + lenAt rows i * (1 / 2) + lenAt rows (i + 1) * (1 / 2)
    else lenAt rows (i + 1) * (1 / 2)

/-! ## More list helpers -/

theorem eq_map_range_of_getD {α : Type _} (d : α) :
    ∀ (l : List α) (f : Nat → α), (∀ i, i < l.length → l.getD i d = f i) →
    l = (List.range l.length).map f
  | [], _, _ => rfl
  | a :: t, f, h => by
    have h0 : a = f 0 := h 0 (by simp)
    have ht : t = (List.range t.length).map (fun i => f (i + 1)) :=
      eq_map_range_of_getD d t (fun i => f (i + 1)) (fun i hi => by
        have hh := h (i + 1) (by simpa using hi)
        simpa [List.getD_cons_succ] using hh)
    rw [List.length_cons, List.range_succ_eq_map, List.map_cons, List.map_map,
      ← h0]
    congr 1

theorem getD_set_self {α : Type _} (l : List α) (i : Nat) (v d : α)
    (h : i < l.length) : (l.set i v).getD i d = v := by
  rw [List.getD_eq_getElem?_getD, List.getElem?_set_eq_of_lt v h]
  rfl

theorem getD_set_ne {α : Type _} (l : List α) {i j : Nat} (v d : α)
    (h : i ≠ j) : (l.set i v).getD j d = l.getD j d := by
  rw [List.getD_eq_getElem?_getD, List.getElem?_set_ne h,
    List.getD_eq_getElem?_getD]

theorem getD_map_length (rows : List StreamRow) (i : Nat)
    (h : i < rows.length) :
    (rows.map (·.length)).getD i 0 = lenAt rows i := by
  rw [List.getD_eq_getElem?_getD, List.getElem?_map, lenAt,
    List.getD_eq_getElem?_getD]
  rcases hx : rows[i]? with _ | r
  · rw [List.getElem?_eq_none_iff] at hx
    omega
  · rfl

theorem getD_mem {α : Type _} (l : List α) (i : Nat) (d : α)
    (h : i < l.length) : l.getD i d ∈ l := by
  rw [List.getD_eq_getElem l d h]
  exact List.getElem_mem h

theorem drop_eq_cons_getD {rows rest : List StreamRow} {k : Nat}
    (h : rows.drop k = (rows.getD k default) :: rest) :
    rest = rows.drop (k + 1) := by
  have := congrArg (List.drop 1) h
  simpa [List.drop_drop, Nat.add_comm] using this.symm

/-! ## Python index helpers for the stream pass -/

theorem pyAppend_natCast (cd : List (List Int)) (k : Nat) (v : Int) :
    pyAppend cd (k : Int) v = cd.set k (cd.getD k [] ++ [v]) := by
  rw [pyAppend]
  have h1 : ¬((k : Int) < 0) := by omega
  simp [h1]

theorem pyAppend_natCast_sub_one (cd : List (List Int)) (k : Nat) (v : Int)
    (hk : 0 < k) :
    pyAppend cd ((k : Int) - 1) v = cd.set (k - 1) (cd.getD (k - 1) [] ++ [v]) := by
  rw [pyAppend]
  have h1 : ¬((k : Int) - 1 < 0) := by omega
  have h2 : ((k : Int) - 1).toNat = k - 1 := by omega
  simp only [h1, if_false, h2]

theorem pyGetQ_natCast (xs : List ℚ) (k : Nat) :
    pyGetQ xs (k : Int) = xs.getD k 0 := by
  rw [pyGetQ]
  have h1 : ¬((k : Int) < 0) := by omega
  simp [h1]

theorem pyGetQ_natCast_sub_one (xs : List ℚ) (k : Nat) (hk : 0 < k) :
    pyGetQ xs ((k : Int) - 1) = xs.getD (k - 1) 0 := by
  rw [pyGetQ]
  have h1 : ¬((k : Int) - 1 < 0) := by omega
  have h2 : ((k : Int) - 1).toNat = k - 1 := by omega
  simp only [h1, if_false, h2]

/-! ## Stepping lemmas for `partialEntry` -/

theorem partialEntry_self (rows : List StreamRow) (k : Nat) :
    partialEntry rows k k = [(k : Int)] := by
  have h1 : ¬(0 < k ∧ k < k ∧ segAt rows k = segAt rows (k - 1)) := by
    rintro ⟨_, h, _⟩
    omega
  have h2 : ¬(k + 1 < k ∧ segAt rows (k + 1) = segAt rows k) := by
    rintro ⟨h, _⟩
    omega
  rw [partialEntry, if_neg h1, if_neg h2]
  simp

theorem partialEntry_succ_ne (rows : List StreamRow) {k i : Nat}
    (h1 : i ≠ k) (h2 : i + 1 ≠ k) :
    partialEntry rows (k + 1) i = partialEntry rows k i := by
  rw [partialEntry, partialEntry]
  have e1 : (0 < i ∧ i < k + 1 ∧ segAt rows i = segAt rows (i - 1)) ↔
      (0 < i ∧ i < k ∧ segAt rows i = segAt rows (i - 1)) := by
    constructor <;> rintro ⟨a, b, c⟩ <;> exact ⟨a, by omega, c⟩
  have e2 : (i + 1 < k + 1 ∧ segAt rows (i + 1) = segAt rows i) ↔
      (i + 1 < k ∧ segAt rows (i + 1) = segAt rows i) := by
    constructor <;> rintro ⟨a, b⟩ <;> exact ⟨by omega, b⟩
  rw [if_congr e1 rfl rfl, if_congr e2 rfl rfl]

theorem partialEntry_succ_self (rows : List StreamRow) (k : Nat) :
    partialEntry rows (k + 1) k =
      [(k : Int)] ++
        (if 0 < k ∧ segAt rows k = segAt rows (k - 1) then [(k : Int) - 1]
          else []) := by
  have h2 : ¬(k + 1 < k + 1 ∧ segAt rows (k + 1) = segAt rows k) := by
    rintro ⟨h, _⟩
    omega
  have e1 : (0 < k ∧ k < k + 1 ∧ segAt rows k = segAt rows (k - 1)) ↔
      (0 < k ∧ segAt rows k = segAt rows (k - 1)) := by
    constructor
    · rintro ⟨a, _, c⟩
      exact ⟨a, c⟩
    · rintro ⟨a, c⟩
      exact ⟨a, by omega, c⟩
  rw [partialEntry, if_neg h2, if_congr e1 rfl rfl]
  simp

theorem partialEntry_succ_pred (rows : List StreamRow) (k : Nat) (hk : 0 < k) :
    partialEntry rows (k + 1) (k - 1) =
      partialEntry rows k (k - 1) ++
        (if segAt rows k = segAt rows (k - 1) then [-(k : Int)] else []) := by
  have hkk : k - 1 + 1 = k := by omega
  rw [partialEntry, partialEntry, hkk]
  have e1 : (0 < k - 1 ∧ k - 1 < k + 1 ∧ segAt rows (k - 1) = segAt rows (k - 1 - 1)) ↔
      (0 < k - 1 ∧ k - 1 < k ∧ segAt rows (k - 1) = segAt rows (k - 1 - 1)) := by
    constructor <;> rintro ⟨a, _, c⟩ <;> exact ⟨a, by omega, c⟩
  have h2 : ¬(k < k ∧ segAt rows k = segAt rows (k - 1)) := by
    rintro ⟨h, _⟩
    omega
  have e3 : (k < k + 1 ∧ segAt rows k = segAt rows (k - 1)) ↔
      segAt rows k = segAt rows (k - 1) := by
    constructor
    · rintro ⟨_, h⟩
      exact h
    · intro h
      exact ⟨by omega, h⟩
  rw [if_congr e1 rfl rfl, if_neg h2, if_congr e3 rfl rfl]
  have hcast : -(((k - 1 : Nat) : Int) + 1) = -(k : Int) := by omega
  by_cases hs : segAt rows k = segAt rows (k - 1)
  · rw [if_pos hs, if_pos hs, hcast]
    simp
  · rw [if_neg hs, if_neg hs]
    simp

/-! ## The main loop invariant of `get_stream_data`'s first pass -/

theorem connLoop_invariant (rows : List StreamRow)
    (hseg : ∀ r ∈ rows, 1 ≤ r.seg) :
    ∀ (rest : List StreamRow) (k : Nat) (cd : List (List Int)) (dl : List ℚ)
      (dist : ℚ) (isegold : Int),
    rest = rows.drop k → k ≤ rows.length →
    cd.length = rows.length →
    (∀ i, i < rows.length → cd.getD i [] = partialEntry rows k i) →
    dl = (List.range k).map (specDist rows) →
    (k = 0 → isegold = -1) →
    (0 < k → isegold = segAt rows (k - 1) - 1 ∧ dist = specDist rows (k - 1)) →
    connLoop (rows.map (·.length)) k isegold dist cd dl rest =
      ((List.range rows.length).map (autoEntry rows),
       (List.range rows.length).map (specDist rows)) := by
  intro rest
  induction rest with
  | nil =>
    intro k cd dl dist isegold hdrop hk hlen hcd hdl _ _
    have hkn : k = rows.length := by
      have hdl2 := congrArg List.length hdrop
      simp only [List.length_nil, List.length_drop] at hdl2
      omega
    subst hkn
    rw [connLoop]
    have hcd2 : cd = (List.range cd.length).map (autoEntry rows) :=
      eq_map_range_of_getD ([] : List Int) cd (autoEntry rows)
        (fun i hi => by rw [hcd i (by omega)]; rfl)
    rw [hlen] at hcd2
    rw [hcd2, hdl]
  | cons r rest' ih =>
    intro k cd dl dist isegold hdrop hk hlen hcd hdl h0 hpos
    have hkn : k < rows.length := by
      have hdl2 := congrArg List.length hdrop
      simp only [List.length_cons, List.length_drop] at hdl2
      omega
    have hr : r = rows.getD k default := by
      have h1 : (rows.drop k).get? 0 = some r := by
        rw [← hdrop]
        rfl
      rw [List.get?_eq_getElem?, List.getElem?_drop] at h1
      simp only [Nat.add_zero] at h1
      rw [List.getD_eq_getElem?_getD, h1]
      rfl
    have hrest' : rest' = rows.drop (k + 1) := by
      rw [hr] at hdrop
      exact drop_eq_cons_getD hdrop.symm
    have hsegk : segAt rows k = r.seg := by
      rw [segAt, ← hr]
    have hseg_r : 1 ≤ r.seg := hseg r (by rw [hr]; exact getD_mem _ _ _ hkn)
    simp only [connLoop]
    by_cases hb : r.seg - 1 = isegold
    · -- same segment as the previous reach
      rw [if_pos hb]
      have hk1 : 0 < k := by
        rcases Nat.eq_zero_or_pos k with hk0 | hk1
        · rw [h0 hk0] at hb
          omega
        · exact hk1
      obtain ⟨k', rfl⟩ : ∃ k', k = k' + 1 :=
        ⟨k - 1, by omega⟩
      obtain ⟨hiso, hdist⟩ := hpos hk1
      have hseq : segAt rows (k' + 1) = segAt rows k' := by
        rw [hiso] at hb
        simp only [Nat.add_sub_cancel] at hb
        omega
      -- the two appends
      rw [pyAppend_natCast]
      rw [pyAppend_natCast_sub_one _ _ _ (by omega)]
      simp only [Nat.add_sub_cancel]
      set cd1 := cd.set (k' + 1) (cd.getD (k' + 1) [] ++ [(↑(k' + 1) : Int) - 1])
        with hcd1
      have hcd1len : cd1.length = rows.length := by
        rw [hcd1, List.length_set, hlen]
      have hcd1k' : cd1.getD k' [] = partialEntry rows (k' + 1) k' := by
        rw [hcd1, getD_set_ne _ _ _ (by omega), hcd k' (by omega)]
      set cd2 := cd1.set k' (cd1.getD k' [] ++ [-(↑(k' + 1) : Int)]) with hcd2
      have hcd2len : cd2.length = rows.length := by
        rw [hcd2, List.length_set, hcd1len]
      have hspec : specDist rows (k' + 1) =
          specDist rows k' + lenAt rows k' * (1 / 2) +
            lenAt rows (k' + 1) * (1 / 2) := by
        rw [specDist, if_pos hseq]
      apply ih (k' + 1 + 1) cd2 _ _ _ hrest' (by omega) hcd2len ?_ ?_
        (by omega) ?_
      · -- the connectivity entries after this step
        intro i hi
        by_cases hik : i = k' + 1
        · subst hik
          rw [hcd2, getD_set_ne _ _ _ (by omega), hcd1,
            getD_set_self _ _ _ _ (by rw [hlen]; omega),
            hcd (k' + 1) (by omega), partialEntry_self]
          have hpe : partialEntry rows (k' + 1 + 1) (k' + 1) =
              [((k' + 1 : Nat) : Int)] ++ [((k' + 1 : Nat) : Int) - 1] := by
            rw [partialEntry_succ_self]
            rw [if_pos ⟨by omega, by simpa using hseq⟩]
          rw [hpe]
        · by_cases hik' : i = k'
          · rw [hik']
            rw [hcd2, getD_set_self _ _ _ _ (by rw [hcd1len]; omega), hcd1k']
            have hps := partialEntry_succ_pred rows (k' + 1) (by omega)
            simp only [Nat.add_sub_cancel] at hps
            rw [hps, if_pos hseq]
          · rw [hcd2, getD_set_ne _ _ _ (by omega), hcd1,
              getD_set_ne _ _ _ (by omega), hcd i hi,
              partialEntry_succ_ne rows hik (by omega)]
      · -- the distances after this step
        rw [hdl, pyGetQ_natCast_sub_one _ _ (by omega), pyGetQ_natCast]
        simp only [Nat.add_sub_cancel]
        rw [getD_map_length _ _ (by omega), getD_map_length _ _ (by omega)]
        have hd : dist + lenAt rows k' * (1 / 2) + lenAt rows (k' + 1) * (1 / 2) =
            specDist rows (k' + 1) := by
          rw [hdist]
          simp only [Nat.add_sub_cancel]
          rw [hspec]
        have hr2 : List.range (k' + 1 + 1) = List.range (k' + 1) ++ [k' + 1] :=
          List.range_succ (k' + 1)
        rw [hd, hr2, List.map_append]
        rfl
      · -- state for the next iteration
        intro _
        constructor
        · simp only [Nat.add_sub_cancel]
          rw [hsegk]
        · rw [pyGetQ_natCast_sub_one _ _ (by omega), pyGetQ_natCast]
          simp only [Nat.add_sub_cancel]
          rw [getD_map_length _ _ (by omega), getD_map_length _ _ (by omega),
            hdist]
          simp only [Nat.add_sub_cancel]
          rw [hspec]
    · -- first reach of a new segment
      rw [if_neg hb]
      have hnewseg : 0 < k → segAt rows k ≠ segAt rows (k - 1) := by
        intro hk1 hc
        obtain ⟨hiso, _⟩ := hpos hk1
        rw [hiso] at hb
        rw [hsegk] at hc
        omega
      apply ih (k + 1) cd _ _ _ hrest' (by omega) hlen ?_ ?_ (by omega) ?_
      · intro i hi
        by_cases hik : i = k
        · rw [hik, hcd k hkn, partialEntry_self, partialEntry_succ_self]
          rcases Nat.eq_zero_or_pos k with h0' | hpos'
          · rw [if_neg (by
              rintro ⟨hc, _⟩
              omega)]
            simp
          · rw [if_neg (by
              rintro ⟨_, hc⟩
              exact hnewseg hpos' hc)]
            simp
        · by_cases hik' : i + 1 = k
          · have hik2 : i = k - 1 := by omega
            subst hik2
            rw [hcd _ hi]
            have hps := partialEntry_succ_pred rows k (by omega)
            rw [hps, if_neg (hnewseg (by omega))]
            simp
          · rw [hcd i hi, partialEntry_succ_ne rows hik hik']
      · rw [hdl, pyGetQ_natCast, getD_map_length _ _ hkn]
        have hd : lenAt rows k * (1 / 2) = specDist rows k := by
          rcases Nat.eq_zero_or_pos k with h0' | hpos'
          · subst h0'
            rw [specDist]
          · obtain ⟨k', rfl⟩ : ∃ k', k = k' + 1 := ⟨k - 1, by omega⟩
            rw [specDist, if_neg (by simpa using hnewseg hpos')]
        have hr2 : List.range (k + 1) = List.range k ++ [k] :=
          List.range_succ k
        rw [hd, hr2, List.map_append]
        rfl
      · intro _
        constructor
        · simp only [Nat.add_sub_cancel]
          rw [hsegk]
        · rw [pyGetQ_natCast, getD_map_length _ _ hkn]
          simp only [Nat.add_sub_cancel]
          rcases Nat.eq_zero_or_pos k with h0' | hpos'
          · subst h0'
            rw [specDist]
          · obtain ⟨k', rfl⟩ : ∃ k', k = k' + 1 := ⟨k - 1, by omega⟩
            rw [specDist, if_neg (by simpa using hnewseg hpos')]

/-- The outputs of the first pass, in closed form: for tables whose
segment ids are all ≥ 1 (so that the sentinel `isegold = -1` never
matches), `connectiondata` is exactly `autoEntry` at every index and
`distance_along_segment` is exactly the running midpoint `specDist`. -/
theorem auto_connectiondata_eq (rows : List StreamRow)
    (hseg : ∀ r ∈ rows, 1 ≤ r.seg) :
    auto_connectiondata rows =
      ((List.range rows.length).map (autoEntry rows),
       (List.range rows.length).map (specDist rows)) := by
  rw [auto_connectiondata]
  refine connLoop_invariant rows hseg rows 0
    ((List.range rows.length).map fun (i : Nat) => [(i : Int)]) [] 0 (-1)
    (by simp) (by omega) (by simp) ?_ (by simp) (fun _ => rfl)
    (fun h => absurd h (by omega))
  intro i hi
  have hinit : ((List.range rows.length).map fun (i : Nat) => [(i : Int)]).getD i [] =
      [(i : Int)] := by
    rw [List.getD_eq_getElem?_getD, List.getElem?_map]
    simp [List.getElem?_range hi]
  have h1 : ¬(0 < i ∧ i < 0 ∧ segAt rows i = segAt rows (i - 1)) := by
    rintro ⟨_, h, _⟩
    omega
  have h2 : ¬(i + 1 < 0 ∧ segAt rows (i + 1) = segAt rows i) := by
    rintro ⟨h, _⟩
    omega
  rw [hinit, partialEntry, if_neg h1, if_neg h2]
  simp

theorem getD_map_range {α : Type _} (f : Nat → α) (d : α) {n i : Nat}
    (h : i < n) : ((List.range n).map f).getD i d = f i := by
  rw [List.getD_eq_getElem?_getD, List.getElem?_map]
  simp [List.getElem?_range h]

/-- Claim C4: for every reach table with 1-based segment ids, the
distance-along-segment list built by `get_stream_data`'s first pass is
the running midpoint position: half the reach's own length on a segment
start, otherwise the previous value plus half the previous plus half the
current reach length. -/
theorem C4_running_midpoint_distance (rows : List StreamRow)
    (hseg : ∀ r ∈ rows, 1 ≤ r.seg) :
    (auto_connectiondata rows).2.length = rows.length ∧
    ∀ i, i < rows.length →
      (auto_connectiondata rows).2.getD i 0 =
        if 0 < i ∧ segAt rows i = segAt rows (i - 1) then
          (auto_connectiondata rows).2.getD (i - 1) 0
            + lenAt rows (i - 1) * (1 / 2) + lenAt rows i * (1 / 2)
        else lenAt rows i * (1 / 2) := by
  rw [auto_connectiondata_eq rows hseg]
  constructor
  · simp
  · intro i hi
    rw [getD_map_range _ _ hi]
    rcases i with _ | j
    · rw [if_neg (by rintro ⟨h, _⟩; omega), specDist]
    · rw [getD_map_range _ _ (by omega)]
      simp only [Nat.add_sub_cancel]
      rw [specDist]
      by_cases hs : segAt rows (j + 1) = segAt rows j
      · rw [if_pos hs, if_pos ⟨by omega, hs⟩]
      · rw [if_neg hs, if_neg (by rintro ⟨_, hc⟩; exact hs hc)]

/-- The three-reach table of the spec's worked example: one segment with
reach lengths 10, 20, 30. -/
def streamRows3 : List StreamRow :=
  [⟨1, 1, 1, 1, 10⟩, ⟨1, 1, 1, 2, 20⟩, ⟨1, 1, 1, 3, 30⟩]

/-- Witness for C4: on lengths `[10, 20, 30]` the recurrence instance at
the last reach holds, and the distance list evaluates to `[5, 20, 45]`. -/
theorem C4_running_midpoint_distance_witness :
    (∀ r ∈ streamRows3, 1 ≤ r.seg) ∧
    ((auto_connectiondata streamRows3).2.getD 2 0 =
      if 0 < 2 ∧ segAt streamRows3 2 = segAt streamRows3 (2 - 1) then
        (auto_connectiondata streamRows3).2.getD (2 - 1) 0
          + lenAt streamRows3 (2 - 1) * (1 / 2) + lenAt streamRows3 2 * (1 / 2)
      else lenAt streamRows3 2 * (1 / 2)) ∧
    (auto_connectiondata streamRows3).2 = [5, 20, 45] :=
  ⟨by decide,
   (C4_running_midpoint_distance streamRows3 (by decide)).2 2 (by decide),
   by with_unfolding_all decide⟩

/-! ## Counting segment blocks, links and distinct segment ids (claim C3) -/

/-- Number of segment starts in the tail of a reach sequence, given the
previous segment id. -/
def startsF (prev : Int) : List Int → Nat
  | [] => 0
  | a :: t => (if a = prev then 0 else 1) + startsF a t

/-- Number of segment starts (first reach, or reach whose segment differs
from its predecessor's). -/
def starts : List Int → Nat
  | [] => 0
  | a :: t => 1 + startsF a t

/-- Number of adjacent equal pairs in the tail, given the previous id. -/
def linksF (prev : Int) : List Int → Nat
  | [] => 0
  | a :: t => (if a = prev then 1 else 0) + linksF a t

/-- Number of adjacent equal pairs: the automatic links of the pass. -/
def links : List Int → Nat
  | [] => 0
  | a :: t => linksF a t

theorem length_dropWhile_le {α : Type _} (p : α → Bool) :
    ∀ l : List α, (l.dropWhile p).length ≤ l.length
  | [] => le_rfl
  | a :: t => by
    rw [List.dropWhile]
    rcases p a with _ | _
    · simp
    · simp only []
      have := length_dropWhile_le p t
      simp only [List.length_cons]
      omega

/-- Fuel-driven worker for `contigB` (structural recursion on the fuel,
so that the kernel can evaluate it on concrete tables). -/
def contigFuel : Nat → List Int → Bool
  | _, [] => true
  | 0, _ :: _ => true
  | fuel + 1, a :: t =>
    let r := t.dropWhile (· == a)
    !(r.contains a) && contigFuel fuel r

/-- Contiguity of a segment-id sequence: after the run of the leading id
ends, that id never occurs again, recursively. -/
def contigB (l : List Int) : Bool := contigFuel l.length l

theorem contigFuel_nil : ∀ fuel : Nat, contigFuel fuel [] = true := by
  intro fuel
  cases fuel <;> rfl

theorem contigFuel_congr :
    ∀ (fuel₁ fuel₂ : Nat) (l : List Int), l.length ≤ fuel₁ →
      l.length ≤ fuel₂ → contigFuel fuel₁ l = contigFuel fuel₂ l := by
  intro f₁
  induction f₁ with
  | zero =>
    intro f₂ l h₁ _
    have hl : l = [] := by
      cases l
      · rfl
      · simp at h₁
    subst hl
    rw [contigFuel_nil, contigFuel_nil]
  | succ f ih =>
    intro f₂ l h₁ h₂
    cases l with
    | nil => rw [contigFuel_nil, contigFuel_nil]
    | cons a t =>
      cases f₂ with
      | zero => simp at h₂
      | succ f' =>
        rw [contigFuel, contigFuel]
        have hr := length_dropWhile_le (fun x => x == a) t
        simp only [List.length_cons] at h₁ h₂
        rw [ih f' _ (by omega) (by omega)]

theorem contigB_cons (a : Int) (t : List Int) :
    contigB (a :: t) =
      (!((t.dropWhile (· == a)).contains a) &&
        contigB (t.dropWhile (· == a))) := by
  rw [contigB, List.length_cons, contigFuel, contigB]
  have hr := length_dropWhile_le (fun x => x == a) t
  rw [contigFuel_congr t.length (t.dropWhile (· == a)).length
    (t.dropWhile (· == a)) (by omega) le_rfl]

theorem dropWhile_head_false {α : Type _} (p : α → Bool) :
    ∀ (l : List α) {b : α} {s : List α}, l.dropWhile p = b :: s → p b = false
  | [], b, s, h => by simp at h
  | a :: t, b, s, h => by
    rw [List.dropWhile] at h
    rcases hp : p a with _ | _ <;> rw [hp] at h
    · injection h with h1 _
      rw [← h1]
      exact hp
    · exact dropWhile_head_false p t h

theorem mem_takeWhile_eq {a : Int} :
    ∀ {l : List Int} {x : Int}, x ∈ l.takeWhile (· == a) → x = a := by
  intro l
  induction l with
  | nil => intro x hx; simp at hx
  | cons b t ih =>
    intro x hx
    rw [List.takeWhile] at hx
    rcases hb : (b == a) with _ | _ <;> rw [hb] at hx
    · simp at hx
    · rcases List.mem_cons.mp hx with hx | hx
      · rw [hx]
        exact eq_of_beq hb
      · exact ih hx

theorem contigB_cons_true {a : Int} {t : List Int}
    (h : contigB (a :: t) = true) :
    a ∉ t.dropWhile (· == a) ∧ contigB (t.dropWhile (· == a)) = true := by
  rw [contigB_cons, Bool.and_eq_true, Bool.not_eq_true'] at h
  refine ⟨fun hmem => ?_, h.2⟩
  have hc : (t.dropWhile (· == a)).contains a = true := List.elem_iff.mpr hmem
  rw [hc] at h
  exact Bool.noConfusion h.1

theorem contigB_cons_cons (a : Int) (s : List Int) :
    contigB (a :: a :: s) = contigB (a :: s) := by
  rw [contigB_cons, contigB_cons, List.dropWhile_cons_of_pos (by simp)]

theorem contigB_tail {a : Int} {t : List Int}
    (h : contigB (a :: t) = true) : contigB t = true := by
  cases t with
  | nil => rfl
  | cons b s =>
    by_cases hba : b = a
    · subst hba
      rw [← contigB_cons_cons]
      exact h
    · have hd : (b :: s).dropWhile (· == a) = b :: s :=
        List.dropWhile_cons_of_neg (by simpa using hba)
      have h2 := (contigB_cons_true h).2
      rw [hd] at h2
      exact h2

theorem startsF_append_run {a : Int} :
    ∀ {w : List Int}, (∀ x ∈ w, x = a) →
      ∀ r : List Int, startsF a (w ++ r) = startsF a r := by
  intro w
  induction w with
  | nil => intro _ r; rfl
  | cons x w' ih =>
    intro hw r
    have hx : x = a := hw x (by simp)
    rw [List.cons_append, startsF, if_pos hx, hx, Nat.zero_add]
    exact ih (fun y hy => hw y (by simp [hy])) r

theorem startsF_eq_starts {a : Int} :
    ∀ {r : List Int}, (∀ b s, r = b :: s → b ≠ a) → startsF a r = starts r := by
  intro r
  cases r with
  | nil => intro _; rfl
  | cons b s =>
    intro hb
    rw [startsF, starts, if_neg (hb b s rfl)]

theorem dedup_cons_run (a : Int) :
    ∀ (w : List Int) (r : List Int), (∀ x ∈ w, x = a) → a ∉ r →
      ((a :: w) ++ r).dedup.length = 1 + r.dedup.length := by
  intro w
  induction w with
  | nil =>
    intro r _ hr
    have hnd : a ∉ r.dedup := fun hc => hr (List.mem_dedup.mp hc)
    rw [List.cons_append, List.nil_append, List.dedup_cons_of_not_mem hr,
      List.length_cons]
    omega
  | cons x w' ih =>
    intro r hw hr
    have hx : x = a := hw x (by simp)
    rw [hx]
    have hmem : a ∈ (a :: w') ++ r := by simp
    calc ((a :: a :: w') ++ r).dedup.length
        = ((a :: w') ++ r).dedup.length := by
          rw [List.cons_append, List.dedup_cons_of_mem hmem]
      _ = 1 + r.dedup.length := ih r (fun y hy => hw y (by simp [hy])) hr

theorem starts_eq_dedup_aux :
    ∀ (n : Nat) (l : List Int), l.length ≤ n → contigB l = true →
      starts l = l.dedup.length := by
  intro n
  induction n with
  | zero =>
    intro l hl _
    have : l = [] := by
      cases l
      · rfl
      · simp at hl
    subst this
    rfl
  | succ n ih =>
    intro l hl hc
    cases l with
    | nil => rfl
    | cons a t =>
      obtain ⟨hnotmem, hcr⟩ := contigB_cons_true hc
      have hwr : t.takeWhile (· == a) ++ t.dropWhile (· == a) = t :=
        List.takeWhile_append_dropWhile (· == a) t
      have hw : ∀ x ∈ t.takeWhile (· == a), x = a := fun x hx =>
        mem_takeWhile_eq hx
      have hrlen : (t.dropWhile (· == a)).length ≤ n := by
        have h1 := length_dropWhile_le (fun x => x == a) t
        simp only [List.length_cons] at hl
        omega
      have hhead : ∀ b s, t.dropWhile (· == a) = b :: s → b ≠ a := by
        intro b s hbs hba
        have := dropWhile_head_false (· == a) t hbs
        rw [hba] at this
        simp at this
      calc starts (a :: t)
          = 1 + startsF a t := rfl
        _ = 1 + startsF a (t.takeWhile (· == a) ++ t.dropWhile (· == a)) := by
            rw [hwr]
        _ = 1 + startsF a (t.dropWhile (· == a)) := by
            rw [startsF_append_run hw]
        _ = 1 + starts (t.dropWhile (· == a)) := by
            rw [startsF_eq_starts hhead]
        _ = 1 + (t.dropWhile (· == a)).dedup.length := by
            rw [ih _ hrlen hcr]
        _ = ((a :: t.takeWhile (· == a)) ++ t.dropWhile (· == a)).dedup.length := by
            rw [dedup_cons_run a _ _ hw hnotmem]
        _ = (a :: t).dedup.length := by
            rw [List.cons_append, hwr]

theorem starts_eq_dedup (l : List Int) (hc : contigB l = true) :
    starts l = l.dedup.length :=
  starts_eq_dedup_aux l.length l le_rfl hc

theorem startsF_add_linksF (prev : Int) :
    ∀ l : List Int, startsF prev l + linksF prev l = l.length := by
  intro l
  induction l generalizing prev with
  | nil => rfl
  | cons a t ih =>
    rw [startsF, linksF, List.length_cons]
    have hih := ih a
    by_cases h : a = prev
    · rw [if_pos h, if_pos h]
      omega
    · rw [if_neg h, if_neg h]
      omega

theorem starts_add_links :
    ∀ l : List Int, starts l + links l = l.length := by
  intro l
  cases l with
  | nil => rfl
  | cons a t =>
    rw [starts, links, List.length_cons]
    have := startsF_add_linksF a t
    omega

theorem sum_map_range (f : Nat → Nat) :
    ∀ n : Nat, ((List.range n).map f).sum = ∑ i in Finset.range n, f i := by
  intro n
  induction n with
  | zero => rfl
  | succ n ih =>
    rw [List.range_succ, List.map_append, List.sum_append,
      Finset.sum_range_succ, ih]
    simp

theorem getD_cons_ite (a : Int) (t : List Int) (i : Nat) (d : Int) :
    (a :: t).getD i d = if i = 0 then a else t.getD (i - 1) d := by
  cases i with
  | zero => rfl
  | succ j => simp [List.getD_cons_succ]

theorem sum_linksF :
    ∀ (l : List Int) (prev : Int),
      (∑ i in Finset.range l.length,
        if l.getD i 0 = (if i = 0 then prev else l.getD (i - 1) 0) then 1 else 0) =
      linksF prev l := by
  intro l
  induction l with
  | nil => intro prev; rfl
  | cons a t ih =>
    intro prev
    rw [List.length_cons, Finset.sum_range_succ']
    have hterm : ∀ i ∈ Finset.range t.length,
        (if (a :: t).getD (i + 1) 0 =
            (if i + 1 = 0 then prev else (a :: t).getD (i + 1 - 1) 0) then 1 else 0) =
        (if t.getD i 0 = (if i = 0 then a else t.getD (i - 1) 0) then 1 else 0) := by
      intro i _
      have h1 : (a :: t).getD (i + 1) 0 = t.getD i 0 := List.getD_cons_succ
      have h2 : (a :: t).getD (i + 1 - 1) 0 =
          if i = 0 then a else t.getD (i - 1) 0 := by
        simp only [Nat.add_sub_cancel]
        exact getD_cons_ite a t i 0
      rw [if_neg (by omega : ¬(i + 1 = 0)), h1, h2]
    rw [Finset.sum_congr rfl hterm, ih a, linksF]
    have h0 : (if (a :: t).getD 0 0 = (if (0 : Nat) = 0 then prev else (a :: t).getD (0 - 1) 0)
        then 1 else 0) = if a = prev then 1 else 0 := by
      rw [if_pos rfl]
      rfl
    rw [h0]
    omega

theorem sum_prevCond (l : List Int) :
    (∑ i in Finset.range l.length,
      if 0 < i ∧ l.getD i 0 = l.getD (i - 1) 0 then 1 else 0) = links l := by
  cases l with
  | nil => rfl
  | cons a t =>
    rw [List.length_cons, Finset.sum_range_succ']
    have hterm : ∀ i ∈ Finset.range t.length,
        (if 0 < i + 1 ∧ (a :: t).getD (i + 1) 0 = (a :: t).getD (i + 1 - 1) 0
          then 1 else 0) =
        (if t.getD i 0 = (if i = 0 then a else t.getD (i - 1) 0) then 1 else 0) := by
      intro i _
      have h1 : (a :: t).getD (i + 1) 0 = t.getD i 0 := List.getD_cons_succ
      have h2 : (a :: t).getD (i + 1 - 1) 0 =
          if i = 0 then a else t.getD (i - 1) 0 := by
        simp only [Nat.add_sub_cancel]
        exact getD_cons_ite a t i 0
      have e : (0 < i + 1 ∧ (a :: t).getD (i + 1) 0 = (a :: t).getD (i + 1 - 1) 0) ↔
          (t.getD i 0 = if i = 0 then a else t.getD (i - 1) 0) := by
        rw [h1, h2]
        constructor
        · rintro ⟨_, h⟩
          exact h
        · intro h
          exact ⟨by omega, h⟩
      rw [if_congr e rfl rfl]
    rw [Finset.sum_congr rfl hterm, sum_linksF t a, links]
    rw [if_neg (by rintro ⟨h, _⟩; omega)]
    omega

theorem linksF_head :
    ∀ (t : List Int) (a : Int),
      linksF a t = links t + (if 0 < t.length ∧ t.getD 0 0 = a then 1 else 0) := by
  intro t a
  cases t with
  | nil => rfl
  | cons b s =>
    rw [linksF, links]
    have e : (0 < (b :: s).length ∧ (b :: s).getD 0 0 = a) ↔ b = a := by
      constructor
      · rintro ⟨_, h⟩
        exact h
      · intro h
        exact ⟨by simp, h⟩
    rw [if_congr e rfl rfl]
    omega

theorem sum_nextCond :
    ∀ l : List Int,
      (∑ i in Finset.range l.length,
        if i + 1 < l.length ∧ l.getD (i + 1) 0 = l.getD i 0 then 1 else 0) =
      links l := by
  intro l
  induction l with
  | nil => rfl
  | cons a t ih =>
    rw [List.length_cons, Finset.sum_range_succ']
    have hterm : ∀ i ∈ Finset.range t.length,
        (if i + 1 + 1 < t.length + 1 ∧
            (a :: t).getD (i + 1 + 1) 0 = (a :: t).getD (i + 1) 0 then 1 else 0) =
        (if i + 1 < t.length ∧ t.getD (i + 1) 0 = t.getD i 0 then 1 else 0) := by
      intro i _
      have h1 : (a :: t).getD (i + 1 + 1) 0 = t.getD (i + 1) 0 := List.getD_cons_succ
      have h2 : (a :: t).getD (i + 1) 0 = t.getD i 0 := List.getD_cons_succ
      have e : (i + 1 + 1 < t.length + 1 ∧
          (a :: t).getD (i + 1 + 1) 0 = (a :: t).getD (i + 1) 0) ↔
          (i + 1 < t.length ∧ t.getD (i + 1) 0 = t.getD i 0) := by
        rw [h1, h2]
        constructor <;> rintro ⟨hl, h⟩ <;> exact ⟨by omega, h⟩
      rw [if_congr e rfl rfl]
    rw [Finset.sum_congr rfl hterm, ih, links, linksF_head t a]
    have h0 : (if 0 + 1 < t.length + 1 ∧ (a :: t).getD (0 + 1) 0 = (a :: t).getD 0 0
        then 1 else 0) = if 0 < t.length ∧ t.getD 0 0 = a then 1 else 0 := by
      have h1 : (a :: t).getD (0 + 1) 0 = t.getD 0 0 := List.getD_cons_succ
      have e : (0 + 1 < t.length + 1 ∧ (a :: t).getD (0 + 1) 0 = (a :: t).getD 0 0) ↔
          (0 < t.length ∧ t.getD 0 0 = a) := by
        rw [h1]
        constructor <;> rintro ⟨hl, h⟩ <;> exact ⟨by omega, h⟩
      rw [if_congr e rfl rfl]
    rw [h0]

theorem getD_map_seg (rows : List StreamRow) {i : Nat}
    (h : i < rows.length) :
    (rows.map (·.seg)).getD i 0 = segAt rows i := by
  rw [List.getD_eq_getElem?_getD, List.getElem?_map, segAt,
    List.getD_eq_getElem?_getD]
  rcases hx : rows[i]? with _ | r
  · rw [List.getElem?_eq_none_iff] at hx
    omega
  · rfl

theorem length_autoEntry (rows : List StreamRow) {i : Nat}
    (hi : i < rows.length) :
    (autoEntry rows i).length =
      1 + (if 0 < i ∧ segAt rows i = segAt rows (i - 1) then 1 else 0)
        + (if i + 1 < rows.length ∧ segAt rows (i + 1) = segAt rows i
            then 1 else 0) := by
  rw [autoEntry, partialEntry]
  have e1 : (0 < i ∧ i < rows.length ∧ segAt rows i = segAt rows (i - 1)) ↔
      (0 < i ∧ segAt rows i = segAt rows (i - 1)) := by
    constructor
    · rintro ⟨a, _, c⟩
      exact ⟨a, c⟩
    · rintro ⟨a, c⟩
      exact ⟨a, hi, c⟩
  rw [if_congr e1 rfl rfl]
  by_cases h1 : 0 < i ∧ segAt rows i = segAt rows (i - 1) <;>
    by_cases h2 : i + 1 < rows.length ∧ segAt rows (i + 1) = segAt rows i
  · rw [if_pos h1, if_pos h2, if_pos h1, if_pos h2]
    simp
  · rw [if_pos h1, if_neg h2, if_pos h1, if_neg h2]
    simp
  · rw [if_neg h1, if_pos h2, if_neg h1, if_pos h2]
    simp
  · rw [if_neg h1, if_neg h2, if_neg h1, if_neg h2]
    simp

/-- Claim C3: on a reach table sorted so that each segment's reaches are
contiguous (1-based segment ids), the automatic pass links exactly the
consecutive same-segment pairs — entry `i` is its own index, then the
upstream neighbor `i - 1` exactly when reach `i` continues reach `i-1`'s
segment, then the downstream neighbor `-(i+1)` exactly when reach `i+1`
continues reach `i`'s segment (that is the content of `autoEntry`) — and
the number of automatic bidirectional links is the number of reaches
minus the number of distinct segment ids: each link adds one upstream and
one downstream entry, so the total entry count is
`n + 2 * (n - #segments)`. -/
theorem C3_automatic_links (rows : List StreamRow)
    (hseg : ∀ r ∈ rows, 1 ≤ r.seg)
    (hcontig : contigB (rows.map (·.seg)) = true) :
    (auto_connectiondata rows).1 = (List.range rows.length).map (autoEntry rows) ∧
    links (rows.map (·.seg)) =
      rows.length - (rows.map (·.seg)).dedup.length ∧
    ((auto_connectiondata rows).1.map List.length).sum =
      rows.length + 2 * (rows.length - (rows.map (·.seg)).dedup.length) := by
  have hconj1 : (auto_connectiondata rows).1 =
      (List.range rows.length).map (autoEntry rows) := by
    rw [auto_connectiondata_eq rows hseg]
  have hlenseg : (rows.map (·.seg)).length = rows.length := by simp
  have hlinks : links (rows.map (·.seg)) =
      rows.length - (rows.map (·.seg)).dedup.length := by
    have h1 := starts_add_links (rows.map (·.seg))
    have h2 := starts_eq_dedup (rows.map (·.seg)) hcontig
    omega
  refine ⟨hconj1, hlinks, ?_⟩
  rw [hconj1, List.map_map, sum_map_range]
  have hterm : ∀ i ∈ Finset.range rows.length,
      (List.length ∘ autoEntry rows) i =
        1 + (if 0 < i ∧ (rows.map (·.seg)).getD i 0 =
              (rows.map (·.seg)).getD (i - 1) 0 then 1 else 0)
          + (if i + 1 < (rows.map (·.seg)).length ∧
              (rows.map (·.seg)).getD (i + 1) 0 =
                (rows.map (·.seg)).getD i 0 then 1 else 0) := by
    intro i hil
    rw [Finset.mem_range] at hil
    rw [Function.comp_apply, length_autoEntry rows hil]
    have e1 : (0 < i ∧ segAt rows i = segAt rows (i - 1)) ↔
        (0 < i ∧ (rows.map (·.seg)).getD i 0 =
          (rows.map (·.seg)).getD (i - 1) 0) := by
      rw [getD_map_seg rows hil, getD_map_seg rows (by omega)]
    have e2 : (i + 1 < rows.length ∧ segAt rows (i + 1) = segAt rows i) ↔
        (i + 1 < (rows.map (·.seg)).length ∧
          (rows.map (·.seg)).getD (i + 1) 0 = (rows.map (·.seg)).getD i 0) := by
      rw [hlenseg]
      constructor
      · rintro ⟨ha, hb⟩
        rw [getD_map_seg rows ha, getD_map_seg rows hil]
        exact ⟨ha, hb⟩
      · rintro ⟨ha, hb⟩
        rw [getD_map_seg rows ha, getD_map_seg rows hil] at hb
        exact ⟨ha, hb⟩
    rw [if_congr e1 rfl rfl, if_congr e2 rfl rfl]
  rw [Finset.sum_congr rfl hterm]
  rw [Finset.sum_add_distrib, Finset.sum_add_distrib]
  have hsum1 : (∑ _i in Finset.range rows.length, 1) = rows.length := by simp
  have hsum2 : (∑ i in Finset.range rows.length,
      if 0 < i ∧ (rows.map (·.seg)).getD i 0 =
        (rows.map (·.seg)).getD (i - 1) 0 then 1 else 0) =
      links (rows.map (·.seg)) := by
    have := sum_prevCond (rows.map (·.seg))
    rw [hlenseg] at this
    exact this
  have hsum3 : (∑ i in Finset.range rows.length,
      if i + 1 < (rows.map (·.seg)).length ∧
        (rows.map (·.seg)).getD (i + 1) 0 =
          (rows.map (·.seg)).getD i 0 then 1 else 0) =
      links (rows.map (·.seg)) := by
    have := sum_nextCond (rows.map (·.seg))
    nth_rewrite 1 [hlenseg] at this
    exact this
  rw [hsum1, hsum2, hsum3, hlinks]
  omega

/-- A four-reach table with two segments (two reaches each), used as the
concrete instance for the C3 witness. -/
def streamRows4 : List StreamRow :=
  [⟨1, 1, 1, 1, 10⟩, ⟨1, 1, 1, 2, 20⟩, ⟨2, 1, 2, 2, 7⟩, ⟨2, 1, 3, 2, 9⟩]

/-- Witness for C3: the hypotheses hold on `streamRows4` and the three
conclusions are obtained from the theorem (4 reaches, 2 segments, so the
automatic links number `4 - 2 = 2` and the total entry count is
`4 + 2*2 = 8`). -/
theorem C3_automatic_links_witness :
    contigB (streamRows4.map (·.seg)) = true ∧
    ((auto_connectiondata streamRows4).1 =
        (List.range streamRows4.length).map (autoEntry streamRows4) ∧
      links (streamRows4.map (·.seg)) =
        streamRows4.length - (streamRows4.map (·.seg)).dedup.length ∧
      ((auto_connectiondata streamRows4).1.map List.length).sum =
        streamRows4.length +
          2 * (streamRows4.length - (streamRows4.map (·.seg)).dedup.length)) :=
  ⟨by decide, C3_automatic_links streamRows4 (by decide) (by decide)⟩

/-- The 32-reach table whose every reach belongs to segment 1 and has
length 0: segment 1's total length is `0`, so the bed-slope computation
divides by zero.  32 reaches are used so that the manual appends at
indices 17, 30, 31 stay in range, as in the real data. -/
def c2rows : List StreamRow := List.replicate 32 ⟨1, 1, 1, 1, 0⟩

set_option maxRecDepth 40000 in
/-- Claim C2 (counterexample evaluation): on the zero-length table the
segment lengths are all zero, yet `get_stream_data` does **not** fail —
it still returns one `packagedata` record per reach.  (On `ℚ` the
division by the zero total length yields `0`; with numpy floats it
yields `inf`/`nan` with a runtime warning — in neither case is any
exception or `ValidationError` raised.) -/
theorem C2_zero_length_segment_no_failure :
    segment_lengths c2rows = [0, 0, 0, 0] ∧
    (get_stream_data c2rows).map (fun p => p.1.length) = some 32 :=
  ⟨by with_unfolding_all decide, by with_unfolding_all decide⟩

/-! ## Machinery for the elevation bounds (claim C5) -/

/-- The interval property of a contiguous sequence: between two equal
values everything is equal. -/
theorem contig_interval_aux :
    ∀ (n : Nat) (l : List Int), l.length ≤ n → contigB l = true →
      ∀ t v u : Nat, t ≤ v → v ≤ u → u < l.length →
        l.getD t 0 = l.getD u 0 → l.getD v 0 = l.getD u 0 := by
  intro n
  induction n with
  | zero =>
    intro l hl _ t v u _ _ hu _
    omega
  | succ n ih =>
    intro l hl hc t v u htv hvu hu heq
    cases l with
    | nil => simp at hu
    | cons a tl =>
      obtain ⟨hnotmem, hcr⟩ := contigB_cons_true hc
      cases t with
      | zero =>
        cases u with
        | zero =>
          have hv : v = 0 := by omega
          rw [hv]
        | succ u' =>
          have heq' : a = tl.getD u' 0 := by
            rw [List.getD_cons_zero] at heq
            rw [heq]
            exact List.getD_cons_succ
          have hwr : tl.takeWhile (· == a) ++ tl.dropWhile (· == a) = tl :=
            List.takeWhile_append_dropWhile (· == a) tl
          have hu' : u' < tl.length := by
            simp only [List.length_cons] at hu
            omega
          have hu'w : u' < (tl.takeWhile (· == a)).length := by
            by_contra hge
            push_neg at hge
            have hsplit : tl.getD u' 0 =
                (tl.dropWhile (· == a)).getD
                  (u' - (tl.takeWhile (· == a)).length) 0 := by
              conv_lhs => rw [← hwr]
              rw [List.getD_eq_getElem?_getD,
                List.getElem?_append_right hge, ← List.getD_eq_getElem?_getD]
            have hlt : u' - (tl.takeWhile (· == a)).length <
                (tl.dropWhile (· == a)).length := by
              have hwl := congrArg List.length hwr
              simp only [List.length_append] at hwl
              omega
            have hmem : a ∈ tl.dropWhile (· == a) := by
              have h5 := getD_mem (tl.dropWhile (· == a))
                (u' - (tl.takeWhile (· == a)).length) 0 hlt
              rw [← hsplit, ← heq'] at h5
              exact h5
            exact hnotmem hmem
          cases v with
          | zero =>
            rw [List.getD_cons_zero, ← heq, List.getD_cons_zero]
          | succ v' =>
            have hv'w : v' < (tl.takeWhile (· == a)).length := by omega
            have hval : tl.getD v' 0 = a := by
              have hsplit : tl.getD v' 0 =
                  (tl.takeWhile (· == a)).getD v' 0 := by
                conv_lhs => rw [← hwr]
                rw [List.getD_eq_getElem?_getD,
                  List.getElem?_append_left hv'w, ← List.getD_eq_getElem?_getD]
              rw [hsplit]
              exact mem_takeWhile_eq (getD_mem _ _ _ hv'w)
            calc (a :: tl).getD (v' + 1) 0 = tl.getD v' 0 := List.getD_cons_succ
              _ = a := hval
              _ = (a :: tl).getD (u' + 1) 0 := by
                  rw [List.getD_cons_succ, ← heq']
      | succ t' =>
        have hv : ∃ v', v = v' + 1 := ⟨v - 1, by omega⟩
        have hup : ∃ u', u = u' + 1 := ⟨u - 1, by omega⟩
        obtain ⟨v', rfl⟩ := hv
        obtain ⟨u', rfl⟩ := hup
        have h1 : (a :: tl).getD (t' + 1) 0 = tl.getD t' 0 := List.getD_cons_succ
        have h2 : (a :: tl).getD (u' + 1) 0 = tl.getD u' 0 := List.getD_cons_succ
        have h3 : (a :: tl).getD (v' + 1) 0 = tl.getD v' 0 := List.getD_cons_succ
        rw [h2, h3]
        rw [h1, h2] at heq
        exact ih tl (by simpa using Nat.lt_succ_iff.mp (by
            simpa [Nat.lt_succ_iff] using hl)) (contigB_tail hc)
          t' v' u' (by omega) (by omega)
          (by simp only [List.length_cons] at hu; omega) heq

theorem contig_interval {l : List Int} (hc : contigB l = true)
    {t v u : Nat} (htv : t ≤ v) (hvu : v ≤ u) (hu : u < l.length)
    (heq : l.getD t 0 = l.getD u 0) : l.getD v 0 = l.getD u 0 :=
  contig_interval_aux l.length l le_rfl hc t v u htv hvu hu heq

/-- A segment-block start has no earlier reach with the same segment. -/
theorem no_earlier_occurrence (rows : List StreamRow)
    (hcontig : contigB (rows.map (·.seg)) = true) {i : Nat}
    (hi : i < rows.length)
    (hstart : i = 0 ∨ segAt rows i ≠ segAt rows (i - 1)) :
    ∀ t, t < i → segAt rows t ≠ segAt rows i := by
  intro t ht hc
  rcases hstart with h0 | hne
  · omega
  · have hlen : (rows.map (·.seg)).length = rows.length := by simp
    have heq : (rows.map (·.seg)).getD t 0 = (rows.map (·.seg)).getD i 0 := by
      rw [getD_map_seg rows (by omega), getD_map_seg rows hi, hc]
    have hmid := contig_interval hcontig (t := t) (v := i - 1) (u := i)
      (by omega) (by omega) (by omega) heq
    rw [getD_map_seg rows (by omega), getD_map_seg rows hi] at hmid
    exact hne hmid.symm

/-- Total length of the reaches of segment `s` — the summand computed by
`segment_lengths` for each of the ids 1..4. -/
def segLen (rows : List StreamRow) (s : Int) : ℚ :=
  ((rows.filter (fun r => r.seg == s)).map (·.length)).sum

theorem segment_lengths_getD (rows : List StreamRow) {s : Int}
    (h1 : 1 ≤ s) (h4 : s ≤ 4) :
    (segment_lengths rows).getD (s - 1).toNat 0 = segLen rows s := by
  interval_cases s <;> rfl

theorem pyGet?_toNat {α : Type _} (xs : List α) (idx : Int) (h0 : 0 ≤ idx) :
    pyGet? xs idx = xs.get? idx.toNat := by
  rw [pyGet?]
  have h1 : ¬(idx < 0) := by omega
  simp only [h1, if_false]

theorem pyGet?_getD {α : Type _} (xs : List α) (idx : Int) (d : α)
    (h0 : 0 ≤ idx) (hlt : idx.toNat < xs.length) :
    pyGet? xs idx = some (xs.getD idx.toNat d) := by
  rw [pyGet?_toNat xs idx h0, List.get?_eq_getElem?,
    List.getElem?_eq_getElem hlt, List.getD_eq_getElem]

theorem lenAt_pos (rows : List StreamRow)
    (hlen : ∀ r ∈ rows, 0 < r.length) {i : Nat} (hi : i < rows.length) :
    0 < lenAt rows i :=
  hlen _ (getD_mem rows i default hi)

theorem specDist_nonneg (rows : List StreamRow)
    (hlen : ∀ r ∈ rows, 0 < r.length) :
    ∀ i, i < rows.length → 0 ≤ specDist rows i := by
  intro i
  induction i with
  | zero =>
    intro hi
    rw [specDist]
    have := lenAt_pos rows hlen hi
    positivity
  | succ j ih =>
    intro hi
    have hj := lenAt_pos rows hlen (show j < rows.length by omega)
    have hj1 := lenAt_pos rows hlen hi
    rw [specDist]
    by_cases hs : segAt rows (j + 1) = segAt rows j
    · rw [if_pos hs]
      have h0 := ih (by omega)
      positivity
    · rw [if_neg hs]
      positivity

/-- The running midpoint plus half the current reach equals the filtered
length-sum of the first `i+1` reaches with the same segment id. -/
theorem specDist_halfSum (rows : List StreamRow)
    (hcontig : contigB (rows.map (·.seg)) = true) :
    ∀ i, i < rows.length →
      specDist rows i + lenAt rows i * (1 / 2) =
        (((rows.take (i + 1)).filter
          (fun r => r.seg == segAt rows i)).map (·.length)).sum := by
  have htake : ∀ i : Nat, i < rows.length →
      rows.take (i + 1) = rows.take i ++ [rows.getD i default] := by
    intro i hi
    rw [List.take_succ]
    have hx : rows[i]? = some (rows.getD i default) := by
      rw [List.getElem?_eq_getElem hi, List.getD_eq_getElem]
    rw [hx]
    rfl
  intro i
  induction i with
  | zero =>
    intro hi
    rw [htake 0 hi]
    have hself : ((rows.getD 0 default).seg == segAt rows 0) = true := by
      rw [segAt]
      exact beq_self_eq_true _
    simp only [List.take_zero, List.nil_append, List.filter_cons, hself,
      if_true, List.filter_nil, List.map_cons, List.map_nil, List.sum_cons,
      List.sum_nil]
    rw [specDist, lenAt]
    ring
  | succ j ih =>
    intro hi
    rw [htake (j + 1) hi]
    rw [specDist]
    by_cases hs : segAt rows (j + 1) = segAt rows j
    · rw [if_pos hs, hs]
      have hihx := ih (by omega)
      rw [List.filter_append, List.map_append, List.sum_append, ← hihx]
      have hself : ((rows.getD (j + 1) default).seg == segAt rows j) = true := by
        have hx : (rows.getD (j + 1) default).seg = segAt rows (j + 1) := rfl
        rw [hx, hs]
        exact beq_self_eq_true _
      simp only [List.filter_cons, hself, if_true, List.filter_nil,
        List.map_cons, List.map_nil, List.sum_cons, List.sum_nil]
      simp only [lenAt]
      ring
    · rw [if_neg hs]
      have hnil : (rows.take (j + 1)).filter
          (fun r => r.seg == segAt rows (j + 1)) = [] := by
        rw [List.filter_eq_nil_iff]
        intro x hx
        obtain ⟨t, ht, hxt⟩ := List.mem_iff_getElem.mp hx
        have htlen : t < j + 1 := by
          have := List.length_take_le (j + 1) rows
          have h2 : (rows.take (j + 1)).length = min (j + 1) rows.length := by
            simp
          omega
        have hxval : x = rows.getD t default := by
          rw [← hxt, List.getElem_take, List.getD_eq_getElem]
        have hne := no_earlier_occurrence rows hcontig hi
          (Or.inr (by simpa using hs)) t (by omega)
        intro hbeq
        apply hne
        have : x.seg = segAt rows (j + 1) := by
          exact eq_of_beq hbeq
        rw [hxval] at this
        exact this
      rw [List.filter_append, hnil, List.nil_append]
      have hself : ((rows.getD (j + 1) default).seg == segAt rows (j + 1)) = true := by
        rw [segAt]
        exact beq_self_eq_true _
      simp only [List.filter_cons, hself, if_true, List.filter_nil,
        List.map_cons, List.map_nil, List.sum_cons, List.sum_nil]
      simp only [lenAt]
      ring

/-- The running midpoint lies strictly inside `[0, segment length)`. -/
theorem specDist_lt_segLen (rows : List StreamRow)
    (hcontig : contigB (rows.map (·.seg)) = true)
    (hlen : ∀ r ∈ rows, 0 < r.length) :
    ∀ i, i < rows.length →
      specDist rows i < segLen rows (segAt rows i) ∧
      0 < segLen rows (segAt rows i) := by
  intro i hi
  have hsplit : segLen rows (segAt rows i) =
      (((rows.take (i + 1)).filter
        (fun r => r.seg == segAt rows i)).map (·.length)).sum +
      (((rows.drop (i + 1)).filter
        (fun r => r.seg == segAt rows i)).map (·.length)).sum := by
    set s := segAt rows i with hsdef
    rw [segLen]
    conv_lhs => rw [← List.take_append_drop (i + 1) rows]
    rw [List.filter_append, List.map_append, List.sum_append]
  have hdrop_nonneg : 0 ≤ (((rows.drop (i + 1)).filter
      (fun r => r.seg == segAt rows i)).map (·.length)).sum := by
    apply List.sum_nonneg
    intro x hx
    obtain ⟨r, hr, hrx⟩ := List.mem_map.mp hx
    have hrmem : r ∈ rows :=
      List.mem_of_mem_drop (List.mem_of_mem_filter hr)
    rw [← hrx]
    exact le_of_lt (hlen r hrmem)
  have hhalf := specDist_halfSum rows hcontig i hi
  have hpos := lenAt_pos rows hlen hi
  have hnn := specDist_nonneg rows hlen i hi
  constructor
  · calc specDist rows i < specDist rows i + lenAt rows i * (1 / 2) := by
          linarith
      _ = _ := hhalf
      _ ≤ segLen rows (segAt rows i) := by
          rw [hsplit]
          linarith
  · calc (0 : ℚ) < specDist rows i + lenAt rows i * (1 / 2) := by linarith
      _ ≤ segLen rows (segAt rows i) := by
          rw [hsplit, ← hhalf]
          linarith

/-- Strict growth of the running midpoint along one segment. -/
theorem specDist_strictMono (rows : List StreamRow)
    (hcontig : contigB (rows.map (·.seg)) = true)
    (hlen : ∀ r ∈ rows, 0 < r.length) (i : Nat) :
    ∀ i', i + 1 ≤ i' → i' < rows.length → segAt rows i' = segAt rows i →
      specDist rows i < specDist rows i' := by
  intro i' hle
  induction i', hle using Nat.le_induction with
  | base =>
    intro hi1 hseq
    rw [specDist, if_pos hseq]
    have h1 := lenAt_pos rows hlen (show i < rows.length by omega)
    have h2 := lenAt_pos rows hlen hi1
    linarith
  | succ m hm ih =>
    intro hm1 hseq
    have hmn : m < rows.length := by omega
    have hsegm : segAt rows m = segAt rows i := by
      have hlenmap : (rows.map (·.seg)).length = rows.length := by simp
      have heq : (rows.map (·.seg)).getD i 0 = (rows.map (·.seg)).getD (m + 1) 0 := by
        rw [getD_map_seg rows (by omega), getD_map_seg rows (by omega), hseq]
      have hmid := contig_interval hcontig (t := i) (v := m) (u := m + 1)
        (by omega) (by omega) (by omega) heq
      rw [getD_map_seg rows (by omega), getD_map_seg rows (by omega)] at hmid
      rw [hmid, hseq]
    have hstep : specDist rows m < specDist rows (m + 1) := by
      rw [specDist, if_pos (by rw [hsegm, hseq])]
      have h1 := lenAt_pos rows hlen hmn
      have h2 := lenAt_pos rows hlen hm1
      linarith
    exact lt_trans (ih hmn hsegm) hstep

/-- Element-wise characterization of the `packagedata` assembly loop. -/
theorem packLoop_spec (sg sl : List ℚ) (cd : List (List Int)) (dl : List ℚ) :
    ∀ (rest : List StreamRow) (k : Nat) (pd : List PackRec),
      packLoop sg sl cd dl k rest = some pd →
      pd.length = rest.length ∧
      ∀ j, j < rest.length →
        mkRec sg sl cd dl (k + j) (rest.getD j default) =
          some (pd.getD j default) := by
  intro rest
  induction rest with
  | nil =>
    intro k pd h
    rw [packLoop] at h
    injection h with h
    rw [← h]
    exact ⟨rfl, fun j hj => by simp at hj⟩
  | cons r rest' ih =>
    intro k pd h
    rw [packLoop] at h
    rcases hmk : mkRec sg sl cd dl k r with _ | pr <;> rw [hmk] at h
    · simp at h
    · rcases hpl : packLoop sg sl cd dl (k + 1) rest' with _ | rest'' <;>
        rw [hpl] at h
      · simp at h
      · injection h with h
        obtain ⟨hlen', hidx⟩ := ih (k + 1) rest'' hpl
        rw [← h]
        constructor
        · simp [hlen']
        · intro j hj
          cases j with
          | zero =>
            simpa using hmk
          | succ j' =>
            have := hidx j' (by simpa using hj)
            have harith : k + (j' + 1) = k + 1 + j' := by omega
            rw [harith]
            simpa [List.getD_cons_succ] using this

theorem emaxmin_snd_lt_fst : ∀ p ∈ emaxmin, p.2 < p.1 := by
  with_unfolding_all decide

/-- The channel-top elevation produced by `mkRec` under a valid segment
id, in terms of the segment's elevation pair and total length. -/
theorem mkRec_rtp (sg sl : List ℚ) (cd : List (List Int)) (dl : List ℚ)
    (ireach : Nat) (r : StreamRow) (h1 : 1 ≤ r.seg) (h4 : r.seg ≤ 4)
    (hsg : sg.length = 4) (hsl : sl.length = 4) (pr : PackRec)
    (h : mkRec sg sl cd dl ireach r = some pr) :
    pr.rtp = (emaxmin.getD (r.seg - 1).toNat (0, 0)).1 -
      dl.getD ireach 0 / sl.getD (r.seg - 1).toNat 0 *
        ((emaxmin.getD (r.seg - 1).toNat (0, 0)).1 -
         (emaxmin.getD (r.seg - 1).toNat (0, 0)).2) := by
  have htn : (r.seg - 1).toNat < 4 := by omega
  have h0 : (0 : Int) ≤ r.seg - 1 := by omega
  rw [mkRec, pyGet?_getD sg (r.seg - 1) 0 h0 (by omega),
    pyGet?_getD emaxmin (r.seg - 1) (0, 0) h0 (by simpa using htn),
    pyGet?_getD sl (r.seg - 1) 0 h0 (by omega)] at h
  injection h with h
  rw [← h]

/-- Claim C5: for reach tables with contiguous 1-based segment ids in 1..4
and strictly positive reach lengths, every record assembled by
`get_stream_data`'s `packagedata` loop carries the channel-top elevation
`emax - (distance-along-segment / total-segment-length) * (emax - emin)`
of its segment; consequently every reach's channel-top elevation lies in
the closed interval `[emin, emax]` of its segment and strictly decreases
with position along the segment. -/
theorem C5_channel_top_elevation (rows : List StreamRow)
    (cd : List (List Int)) (pd : List PackRec)
    (hsegb : ∀ r ∈ rows, 1 ≤ r.seg ∧ r.seg ≤ 4)
    (hlen : ∀ r ∈ rows, 0 < r.length)
    (hcontig : contigB (rows.map (·.seg)) = true)
    (hpd : packagedata rows cd = some pd) :
    pd.length = rows.length ∧
    ∀ i, i < rows.length →
      (pd.getD i default).rtp =
        (emaxmin.getD (segAt rows i - 1).toNat (0, 0)).1 -
          specDist rows i / segLen rows (segAt rows i) *
            ((emaxmin.getD (segAt rows i - 1).toNat (0, 0)).1 -
             (emaxmin.getD (segAt rows i - 1).toNat (0, 0)).2) ∧
      (emaxmin.getD (segAt rows i - 1).toNat (0, 0)).2 ≤
        (pd.getD i default).rtp ∧
      (pd.getD i default).rtp ≤
        (emaxmin.getD (segAt rows i - 1).toNat (0, 0)).1 ∧
      ∀ i', i < i' → i' < rows.length → segAt rows i' = segAt rows i →
        (pd.getD i' default).rtp < (pd.getD i default).rtp := by
  rw [packagedata] at hpd
  obtain ⟨hlenpd, hidx⟩ := packLoop_spec (segment_gradients rows)
    (segment_lengths rows) cd (auto_connectiondata rows).2 rows 0 pd hpd
  have hseg1 : ∀ r ∈ rows, 1 ≤ r.seg := fun r hr => (hsegb r hr).1
  have hdl : (auto_connectiondata rows).2 =
      (List.range rows.length).map (specDist rows) := by
    rw [auto_connectiondata_eq rows hseg1]
  have hsg4 : (segment_gradients rows).length = 4 := by
    simp [segment_gradients, segment_lengths, emaxmin]
  have hsl4 : (segment_lengths rows).length = 4 := by
    simp [segment_lengths]
  have hsegAt : ∀ i, i < rows.length →
      1 ≤ segAt rows i ∧ segAt rows i ≤ 4 := fun i hi =>
    hsegb (rows.getD i default) (getD_mem rows i default hi)
  have hformula : ∀ i, i < rows.length →
      (pd.getD i default).rtp =
        (emaxmin.getD (segAt rows i - 1).toNat (0, 0)).1 -
          specDist rows i / segLen rows (segAt rows i) *
            ((emaxmin.getD (segAt rows i - 1).toNat (0, 0)).1 -
             (emaxmin.getD (segAt rows i - 1).toNat (0, 0)).2) := by
    intro i hi
    have hmk := hidx i hi
    rw [Nat.zero_add] at hmk
    have hrseg := hsegb (rows.getD i default) (getD_mem rows i default hi)
    have hmr := mkRec_rtp (segment_gradients rows) (segment_lengths rows) cd
      (auto_connectiondata rows).2 i (rows.getD i default)
      hrseg.1 hrseg.2 hsg4 hsl4 _ hmk
    have hdli : (auto_connectiondata rows).2.getD i 0 = specDist rows i := by
      rw [hdl]
      exact getD_map_range _ _ hi
    have hsa : (rows.getD i default).seg = segAt rows i := rfl
    rw [hdli, hsa, segment_lengths_getD rows (hsegAt i hi).1 (hsegAt i hi).2]
      at hmr
    exact hmr
  refine ⟨by rw [hlenpd], fun i hi => ?_⟩
  have hem_lt : (emaxmin.getD (segAt rows i - 1).toNat (0, 0)).2 <
      (emaxmin.getD (segAt rows i - 1).toNat (0, 0)).1 := by
    apply emaxmin_snd_lt_fst
    apply getD_mem
    have h1 := (hsegAt i hi).1
    have h4 := (hsegAt i hi).2
    show (segAt rows i - 1).toNat < 4
    omega
  have hd0 := specDist_nonneg rows hlen i hi
  obtain ⟨hdL, hL0⟩ := specDist_lt_segLen rows hcontig hlen i hi
  have hq0 : 0 ≤ specDist rows i / segLen rows (segAt rows i) :=
    div_nonneg hd0 (le_of_lt hL0)
  have hq1 : specDist rows i / segLen rows (segAt rows i) ≤ 1 :=
    (div_le_one hL0).mpr (le_of_lt hdL)
  refine ⟨hformula i hi, ?_, ?_, ?_⟩
  · rw [hformula i hi]
    have hmul : specDist rows i / segLen rows (segAt rows i) *
        ((emaxmin.getD (segAt rows i - 1).toNat (0, 0)).1 -
         (emaxmin.getD (segAt rows i - 1).toNat (0, 0)).2) ≤
        ((emaxmin.getD (segAt rows i - 1).toNat (0, 0)).1 -
         (emaxmin.getD (segAt rows i - 1).toNat (0, 0)).2) :=
      mul_le_of_le_one_left (by linarith) hq1
    linarith
  · rw [hformula i hi]
    have hmul : 0 ≤ specDist rows i / segLen rows (segAt rows i) *
        ((emaxmin.getD (segAt rows i - 1).toNat (0, 0)).1 -
         (emaxmin.getD (segAt rows i - 1).toNat (0, 0)).2) :=
      mul_nonneg hq0 (by linarith)
    linarith
  · intro i' hii' hi' hseq
    rw [hformula i hi, hformula i' hi', hseq]
    have hdd' : specDist rows i < specDist rows i' :=
      specDist_strictMono rows hcontig hlen i i' (by omega) hi' hseq
    have hdiv : specDist rows i / segLen rows (segAt rows i) <
        specDist rows i' / segLen rows (segAt rows i) :=
      (div_lt_div_iff_of_pos_right hL0).mpr hdd'
    have hmul := mul_lt_mul_of_pos_right hdiv (by linarith :
      (0 : ℚ) < (emaxmin.getD (segAt rows i - 1).toNat (0, 0)).1 -
        (emaxmin.getD (segAt rows i - 1).toNat (0, 0)).2)
    linarith

/-- The `packagedata` output on the two-segment witness table (the
`connectiondata` argument only feeds the `ncon` field). -/
def c5pd : List PackRec :=
  (packagedata streamRows4 (auto_connectiondata streamRows4).1).getD []

/-- Witness for C5: on the two-segment table, reach 1 continues reach 0's
segment and its channel-top elevation is strictly lower. -/
theorem C5_channel_top_elevation_witness :
    (c5pd.getD 1 default).rtp < (c5pd.getD 0 default).rtp :=
  ((C5_channel_top_elevation streamRows4 (auto_connectiondata streamRows4).1
      c5pd (by decide) (by decide) (by decide)
      (by with_unfolding_all rfl)).2 0 (by decide)).2.2.2
    1 (by decide) (by decide) (by decide)

end Prudic2004t2
